import Mathlib

set_option maxRecDepth 100000

/-!
Verification development for the `hitagi` language server.

The Rust sources are shallowly embedded:
* byte strings (`&[u8]`, `Vec<u8>`) become `List Nat` (each entry one byte);
* Rust `String`/`&str` values become `List Char`; their UTF-8 byte view is
  `bytesOf`;
* `usize` values become `Nat` (the saturating additions in the sources
  saturate only at `usize::MAX`, unreachable here, so plain `+` is used for
  them); `u32` values keep their saturating/wrapping behaviour explicitly
  via `satAdd32` / `% 4294967296`;
* `HashMap` becomes an association list with the same lookup/insert
  contract (iteration order is never observed by the embedded code);
* loops with non-structural index jumps are written with an explicit fuel
  argument; the fuel passed by the wrappers is proven (or visibly) larger
  than the number of iterations, which is bounded because every iteration
  strictly increases the index.
-/

namespace Hitagi

/-! ## UTF-8 byte model -/

/-- UTF-8 encoding of one scalar value (standard 1-4 byte encoding). -/
def utf8Bytes (c : Char) : List Nat :=
  let n := c.toNat
  if n < 128 then [n]
  else if n < 2048 then [192 + n / 64, 128 + n % 64]
  else if n < 65536 then [224 + n / 4096, 128 + (n / 64) % 64, 128 + n % 64]
  else [240 + n / 262144, 128 + (n / 4096) % 64, 128 + (n / 64) % 64, 128 + n % 64]

/-- The UTF-8 byte sequence of a Rust `String` modelled as `List Char`. -/
def bytesOf (s : List Char) : List Nat :=
  s.flatMap utf8Bytes

/-- Rust `str::len` (UTF-8 byte length). -/
def strByteLen (s : List Char) : Nat :=
  (bytesOf s).length

/-- Byte length of one char (`char::len_utf8`). -/
def charByteLen (c : Char) : Nat :=
  (utf8Bytes c).length

/-- `char::len_utf16`. -/
def utf16LenC (c : Char) : Nat :=
  if c.toNat < 65536 then 1 else 2

/-- `u32::saturating_add`. -/
def satAdd32 (a b : Nat) : Nat :=
  min (a + b) 4294967295

/-! ## `lsp_types::Position` and friends -/

/-- `lsp_types::Position`: `line` and `character` are `u32`; every value the
embedded code stores in them is (provably) below `2^32`. -/
structure Position where
  line : Nat
  character : Nat
deriving DecidableEq

/-- `lsp_types::Range`. -/
structure Range where
  start : Position
  stop : Position
deriving DecidableEq

/-! ## `src/doc/position.rs` -/

/-- Loop of `offset_to_position` (iteration over `char_indices`, breaking at
the first byte index `≥ offset`; `line`/`col` are `u32` with
`saturating_add`). -/
def otpGo (offset : Nat) : List Char → Nat → Nat → Nat → Nat × Nat
  | [], _, line, col => (line, col)
  | c :: cs, idx, line, col =>
    if offset ≤ idx then (line, col)
    else if c = '\n' then otpGo offset cs (idx + charByteLen c) (satAdd32 line 1) 0
    else otpGo offset cs (idx + charByteLen c) line (satAdd32 col (utf16LenC c))

/-- `offset_to_position` from `src/doc/position.rs`. -/
def offset_to_position (text : List Char) (offset : Nat) : Option Position :=
  if strByteLen text < offset then none
  else
    let lc := otpGo offset text 0 0 0
    some ⟨lc.1, lc.2⟩

/-- Rust `text.split('\n')` (always returns at least one, possibly empty,
segment; a trailing newline yields a trailing empty segment). -/
def splitNl : List Char → List (List Char)
  | [] => [[]]
  | c :: cs =>
    if c = '\n' then [] :: splitNl cs
    else
      match splitNl cs with
      | [] => [[c]]
      | l :: ls => (c :: l) :: ls

/-- Loop of `utf16_col_to_byte_offset`: walk `char_indices` of one line;
return the byte index of the first char whose accumulated UTF-16 count
reaches `col`, or the line's byte length.  The `+=` on the `u32`
accumulator wraps (release mode), hence the `% 2^32`. -/
def u16Go (col : Nat) : List Char → Nat → Nat → Nat
  | [], byteIdx, _ => byteIdx
  | c :: cs, byteIdx, units =>
    if col ≤ units then byteIdx
    else
      let units' := (units + utf16LenC c) % 4294967296
      if col < units' then byteIdx
      else u16Go col cs (byteIdx + charByteLen c) units'

/-- `utf16_col_to_byte_offset` from `src/doc/position.rs`. -/
def utf16_col_to_byte_offset (line : List Char) (col : Nat) : Nat :=
  u16Go col line 0 0

/-- Loop of `position_to_offset`: scan the `split('\n')` segments with the
running byte offset of the segment start; `idx as u32` is the `% 2^32`. -/
def ptoGo (pos : Position) : List (List Char) → Nat → Nat → Option Nat
  | [], _, _ => none
  | l :: ls, idx, lineStart =>
    if idx % 4294967296 = pos.line then
      some (lineStart + utf16_col_to_byte_offset l pos.character)
    else ptoGo pos ls (idx + 1) (lineStart + strByteLen l + 1)

/-- `position_to_offset` from `src/doc/position.rs`. -/
def position_to_offset (text : List Char) (pos : Position) : Option Nat :=
  ptoGo pos (splitNl text) 0 0

/-- `lsp_position_from_span` from `src/doc/position.rs` (1-based to 0-based
with `u32::saturating_sub`, which on `Nat` arguments below `2^32` is
truncated subtraction). -/
def lsp_position_from_span (line column : Nat) : Position :=
  ⟨line - 1, column - 1⟩

/-! ## `src/doc/store.rs` -/

/-- A document URI (`lsp_types::Uri` is modelled by its string form). -/
abbrev Uri := String

/-- `Document` from `src/doc/store.rs`. -/
structure Document where
  text : List Char
  version : Int
deriving DecidableEq

/-- `DocumentStore` (the `HashMap<Uri, Document>` as an association list;
at most one entry per key). -/
structure DocumentStore where
  docs : List (Uri × Document)
deriving DecidableEq

/-- `HashMap::get`. -/
def DocumentStore.get (s : DocumentStore) (uri : Uri) : Option Document :=
  (s.docs.find? (fun e => e.1 = uri)).map (·.2)

/-- `DocumentStore::change_full`: update the stored document in place, or
insert a fresh one when the URI is unknown. -/
def DocumentStore.change_full (s : DocumentStore) (uri : Uri) (version : Int)
    (text : List Char) : DocumentStore :=
  match s.docs.find? (fun e => e.1 = uri) with
  | some _ =>
    ⟨s.docs.map (fun e => if e.1 = uri then (e.1, ⟨text, version⟩) else e)⟩
  | none => ⟨s.docs ++ [(uri, ⟨text, version⟩)]⟩

/-! ## `src/doc/uri.rs`

The target is a POSIX build: every `cfg!(windows)` block in the source is
statically dead and therefore omitted.  `lsp_types::Uri` is modelled by its
string form; `Uri::from_str` on the always-well-formed `file:` URIs built by
`path_to_uri` is modelled as succeeding with that string, and `PathBuf` is
modelled by the path string it wraps. -/

/-- `to_hex` from `src/doc/uri.rs`. -/
def to_hex (value : Nat) : Char :=
  if value ≤ 9 then Char.ofNat (48 + value)
  else if value ≤ 15 then Char.ofNat (65 + (value - 10))
  else '0'

/-- `from_hex` from `src/doc/uri.rs`. -/
def from_hex (b : Nat) : Option Nat :=
  if 48 ≤ b ∧ b ≤ 57 then some (b - 48)
  else if 97 ≤ b ∧ b ≤ 102 then some (b - 97 + 10)
  else if 65 ≤ b ∧ b ≤ 70 then some (b - 65 + 10)
  else none

/-- `is_unreserved` from `src/doc/uri.rs` (on the byte value of the char the
source builds from the byte). -/
def is_unreserved (b : Nat) : Bool :=
  (48 ≤ b ∧ b ≤ 57) ∨ (65 ≤ b ∧ b ≤ 90) ∨ (97 ≤ b ∧ b ≤ 122) ∨
    b = 45 ∨ b = 46 ∨ b = 95 ∨ b = 126

/-- `percent_encode` from `src/doc/uri.rs`: it walks the UTF-8 bytes of its
input and emits ASCII output. -/
def percentEncodeBytes : List Nat → List Char
  | [] => []
  | b :: bs =>
    if is_unreserved b ∨ b = 47 then Char.ofNat b :: percentEncodeBytes bs
    else '%' :: to_hex (b / 16 % 16) :: to_hex (b % 16) :: percentEncodeBytes bs

/-- `percent_encode` on a string. -/
def percent_encode (s : List Char) : List Char :=
  percentEncodeBytes (bytesOf s)

/-- Byte loop of `percent_decode`: `%XY` consumes three bytes (requiring two
hex digits with at least one byte after them, exactly as the source's
`i + 2 >= bytes.len()` guard), any other byte passes through. -/
def percentDecodeBytes : List Nat → Option (List Nat)
  | [] => some []
  | b :: bs =>
    if b = 37 then
      match bs with
      | hi :: lo :: rest =>
        match from_hex hi, from_hex lo with
        | some h, some l => (percentDecodeBytes rest).map ((h * 16 + l) :: ·)
        | _, _ => none
      | _ => none
    else (percentDecodeBytes bs).map (b :: ·)

/-- A UTF-8 continuation byte. -/
def utf8Cont (b : Nat) : Bool :=
  128 ≤ b ∧ b ≤ 191

/-- Loop of `String::from_utf8`: strict UTF-8 decoding (rejecting overlong
forms, surrogates and out-of-range values).  Each step consumes at least
one byte, so the `length + 1` fuel supplied by `utf8Decode` never runs
out.  (`bs.getD k 0` reads the k-th continuation byte behind the length
guard.) -/
def utf8DecodeAux : Nat → List Nat → Option (List Char)
  | 0, _ => none
  | _ + 1, [] => some []
  | fuel + 1, b1 :: bs =>
    if b1 < 128 then (utf8DecodeAux fuel bs).map (Char.ofNat b1 :: ·)
    else if 194 ≤ b1 ∧ b1 ≤ 223 then
      if 1 ≤ bs.length ∧ utf8Cont (bs.getD 0 0) then
        (utf8DecodeAux fuel (bs.drop 1)).map
          (Char.ofNat ((b1 - 192) * 64 + (bs.getD 0 0 - 128)) :: ·)
      else none
    else if 224 ≤ b1 ∧ b1 ≤ 239 then
      let n := (b1 - 224) * 4096 + (bs.getD 0 0 - 128) * 64 + (bs.getD 1 0 - 128)
      if 2 ≤ bs.length ∧ utf8Cont (bs.getD 0 0) ∧ utf8Cont (bs.getD 1 0) ∧
          2048 ≤ n ∧ ¬(55296 ≤ n ∧ n ≤ 57343) then
        (utf8DecodeAux fuel (bs.drop 2)).map (Char.ofNat n :: ·)
      else none
    else if 240 ≤ b1 ∧ b1 ≤ 244 then
      let n := (b1 - 240) * 262144 + (bs.getD 0 0 - 128) * 4096 +
        (bs.getD 1 0 - 128) * 64 + (bs.getD 2 0 - 128)
      if 3 ≤ bs.length ∧ utf8Cont (bs.getD 0 0) ∧ utf8Cont (bs.getD 1 0) ∧
          utf8Cont (bs.getD 2 0) ∧ 65536 ≤ n ∧ n ≤ 1114111 then
        (utf8DecodeAux fuel (bs.drop 3)).map (Char.ofNat n :: ·)
      else none
    else none

/-- `String::from_utf8`. -/
def utf8Decode (bs : List Nat) : Option (List Char) :=
  utf8DecodeAux (bs.length + 1) bs

/-- `percent_decode` from `src/doc/uri.rs` (byte loop, then
`String::from_utf8`). -/
def percent_decode (s : List Char) : Option (List Char) :=
  (percentDecodeBytes (bytesOf s)).bind utf8Decode

/-- Rust `str::strip_prefix` on char lists. -/
def stripPrefixL (pre s : List Char) : Option (List Char) :=
  if pre.isPrefixOf s then some (s.drop pre.length) else none

/-- `eq_ignore_ascii_case`. -/
def asciiLower (c : Char) : Char :=
  if 65 ≤ c.toNat ∧ c.toNat ≤ 90 then Char.ofNat (c.toNat + 32) else c

/-- `str::eq_ignore_ascii_case`. -/
def eqIgnoreAsciiCase (a b : List Char) : Bool :=
  a.map asciiLower = b.map asciiLower

/-- `uri_to_path` from `src/doc/uri.rs` (POSIX: the `cfg!(windows)` drive
letter fixup is dead code). -/
def uri_to_path (uri : List Char) : Option (List Char) :=
  match stripPrefixL ("file://".toList) uri with
  | none => none
  | some rest =>
    let ap : List Char × List Char :=
      if rest.take 1 = ['/'] then ([], rest)
      else
        let authority := rest.takeWhile (· ≠ '/')
        let afterAuth := rest.drop authority.length
        match afterAuth with
        | [] => (authority, ['/'])
        | _ :: p => (authority, '/' :: p)
    let authority := ap.1
    let path_part := ap.2
    let combined :=
      if authority = [] ∨ eqIgnoreAsciiCase authority ("localhost".toList) then path_part
      else '/' :: '/' :: (authority ++ path_part)
    (percent_decode combined).map id

/-- `path_to_uri` from `src/doc/uri.rs` (POSIX: `is_absolute` is "starts
with `/`", `to_string_lossy` is the identity on the modelled Unicode path,
and the `cfg!(windows)` UNC branch is dead code). -/
def path_to_uri (path : List Char) : Option (List Char) :=
  if path.take 1 ≠ ['/'] then none
  else
    let normalized := path.map (fun c => if c = '\\' then '/' else c)
    let normalized :=
      if normalized.take 1 ≠ ['/'] then '/' :: normalized else normalized
    let encoded := percent_encode normalized
    let encoded' := if encoded.take 1 = ['/'] then encoded.drop 1 else encoded
    some ("file:///".toList ++ encoded')

/-! ## Lexer (`src/inlay/mod.rs`, `lex` and helpers)

The lexer walks the UTF-8 bytes of the document.  `byteAt bs i` is
`bytes[i]`; every access in the embedding is guarded by the same bounds
checks as the source.  The scanning loops carry a fuel argument; `lex`
passes fuel larger than the number of iterations (each iteration strictly
increases the index, which never exceeds the length by more than one). -/

/-- `bytes[i]` (every use is behind the source's `i < len` guard). -/
def byteAt (bs : List Nat) (i : Nat) : Nat :=
  bs.getD i 0

/-- The byte sub-slice `bytes[a..b]` (also used for `&text[a..b]`). -/
def extractB (bs : List Nat) (a b : Nat) : List Nat :=
  (bs.drop a).take (b - a)

/-- ASCII keyword / literal text as a byte list. -/
def kw (s : String) : List Nat :=
  s.toList.map Char.toNat

/-- `u8::is_ascii_whitespace`. -/
def isWsB (b : Nat) : Bool :=
  b = 32 ∨ b = 9 ∨ b = 10 ∨ b = 12 ∨ b = 13

/-- `is_ident_start` from `src/inlay/mod.rs`. -/
def is_ident_start (b : Nat) : Bool :=
  b = 95 ∨ (65 ≤ b ∧ b ≤ 90) ∨ (97 ≤ b ∧ b ≤ 122)

/-- `is_ident_continue` from `src/inlay/mod.rs`. -/
def is_ident_continue (b : Nat) : Bool :=
  b = 95 ∨ (48 ≤ b ∧ b ≤ 57) ∨ (65 ≤ b ∧ b ≤ 90) ∨ (97 ≤ b ∧ b ≤ 122)

/-- `u8::is_ascii_digit`. -/
def isDigitB (b : Nat) : Bool :=
  48 ≤ b ∧ b ≤ 57

/-- Continuation predicate of the number scan
(`is_ascii_alphanumeric || _ || .`). -/
def numContinue (b : Nat) : Bool :=
  (48 ≤ b ∧ b ≤ 57) ∨ (65 ≤ b ∧ b ≤ 90) ∨ (97 ≤ b ∧ b ≤ 122) ∨ b = 95 ∨ b = 46

/-- `TokenKind` from `src/inlay/mod.rs` (identifier and lifetime text as the
byte slice the source copies out of the input). -/
inductive TokenKind where
  | ident (name : List Nat)
  | lifetime (name : List Nat)
  | number
  | punct (ch : Nat)
  | doubleColon
  | arrow
deriving DecidableEq

/-- `Token` from `src/inlay/mod.rs` (`stop` is the Rust field `end`). -/
structure Token where
  kind : TokenKind
  start : Nat
  stop : Nat
deriving DecidableEq

/-- `Token::is_ident`. -/
def Token.isIdent (t : Token) (value : List Nat) : Bool :=
  match t.kind with
  | .ident name => name = value
  | _ => false

/-- `Token::ident`. -/
def Token.identName (t : Token) : Option (List Nat) :=
  match t.kind with
  | .ident name => some name
  | _ => none

/-- `Token::is_punct`. -/
def Token.isPunct (t : Token) (ch : Nat) : Bool :=
  match t.kind with
  | .punct value => value = ch
  | _ => false

/-- A `while i < len && p bytes[i] do i += 1` scan, returning the final
index. -/
def scanWhileB (bs : List Nat) (p : Nat → Bool) : Nat → Nat → Nat
  | 0, i => i
  | fuel + 1, i =>
    if i < bs.length ∧ p (byteAt bs i) then scanWhileB bs p fuel (i + 1) else i

/-- Scanning loop of the `/* ... */` branch of `lex`: while `i + 1 < len`,
a `*/` pair stops at `i + 2`, otherwise advance one byte; an unterminated
comment leaves `i` where the condition failed. -/
def blockCommentEnd (bs : List Nat) : Nat → Nat → Nat
  | 0, i => i
  | fuel + 1, i =>
    if i + 1 < bs.length then
      if byteAt bs i = 42 ∧ byteAt bs (i + 1) = 47 then i + 2
      else blockCommentEnd bs fuel (i + 1)
    else i

/-- `skip_normal_string` from `src/inlay/mod.rs` (`\\` skips two bytes; an
unterminated string runs to the end). -/
def skip_normal_string (bs : List Nat) : Nat → Nat → Nat
  | 0, _ => bs.length
  | fuel + 1, idx =>
    if idx < bs.length then
      if byteAt bs idx = 92 then skip_normal_string bs fuel (idx + 2)
      else if byteAt bs idx = 34 then idx + 1
      else skip_normal_string bs fuel (idx + 1)
    else bs.length

/-- The `while matched < hashes && j < len && bytes[j] == b'#'` counter in
`skip_raw_string` (structural on the remaining allowance). -/
def countHashesUpTo (bs : List Nat) : Nat → Nat → Nat
  | 0, _ => 0
  | allowance + 1, j =>
    if j < bs.length ∧ byteAt bs j = 35 then countHashesUpTo bs allowance (j + 1) + 1
    else 0

/-- Terminator search of `skip_raw_string`: find `"` followed by `hashes`
hash marks; return the index just past the terminator, or the length for an
unterminated raw string (the source then yields `Some(len)`). -/
def rawBodyEnd (bs : List Nat) (hashes : Nat) : Nat → Nat → Nat
  | 0, _ => bs.length
  | fuel + 1, idx =>
    if idx < bs.length then
      if byteAt bs idx = 34 ∧ countHashesUpTo bs hashes (idx + 1) = hashes then
        idx + 1 + hashes
      else rawBodyEnd bs hashes fuel (idx + 1)
    else bs.length

/-- `skip_raw_string` from `src/inlay/mod.rs`: a run of `#` must be followed
by `"`, else `None`; then the body is scanned for the matching
terminator. -/
def skip_raw_string (bs : List Nat) (idx : Nat) : Option Nat :=
  let hEnd := scanWhileB bs (fun b => b = 35) (bs.length + 2) idx
  if hEnd < bs.length ∧ byteAt bs hEnd = 34 then
    some (rawBodyEnd bs (hEnd - idx) (bs.length + 2) (hEnd + 1))
  else none

/-- `skip_string_literal` from `src/inlay/mod.rs` (`"`, `b"`, `br`, `r`
forms; `None` means the position does not start a string literal). -/
def skip_string_literal (bs : List Nat) (idx : Nat) : Option Nat :=
  if bs.length ≤ idx then none
  else if byteAt bs idx = 34 then some (skip_normal_string bs (bs.length + 2) (idx + 1))
  else if byteAt bs idx = 98 then
    if idx + 1 < bs.length ∧ byteAt bs (idx + 1) = 34 then
      some (skip_normal_string bs (bs.length + 2) (idx + 2))
    else if idx + 1 < bs.length ∧ byteAt bs (idx + 1) = 114 then
      match skip_raw_string bs (idx + 2) with
      | some next => some next
      | none => none
    else none
  else if byteAt bs idx = 114 then skip_raw_string bs (idx + 1)
  else none

/-- Character-literal body scan of `lex_lifetime_or_char` (`\\` skips two
bytes, `'` stops just past itself, otherwise the scan runs to the end). -/
def charLitEnd (bs : List Nat) : Nat → Nat → Nat
  | 0, _ => bs.length
  | fuel + 1, j =>
    if j < bs.length then
      if byteAt bs j = 92 then charLitEnd bs fuel (j + 2)
      else if byteAt bs j = 39 then j + 1
      else charLitEnd bs fuel (j + 1)
    else bs.length

/-- `lex_lifetime_or_char` from `src/inlay/mod.rs`: after a `'`, an
identifier run is a lifetime token unless a closing `'` follows (then it is
a char literal, emitting nothing); otherwise the char-literal body is
skipped. -/
def lex_lifetime_or_char (bs : List Nat) (idx : Nat) : Option Token × Nat :=
  if bs.length ≤ idx + 1 then (none, idx + 1)
  else if is_ident_start (byteAt bs (idx + 1)) then
    let j := scanWhileB bs is_ident_continue (bs.length + 2) (idx + 1)
    if j < bs.length ∧ byteAt bs j = 39 then (none, j + 1)
    else (some ⟨.lifetime (extractB bs (idx + 1) j), idx, j⟩, j)
  else (none, charLitEnd bs (bs.length + 2) (idx + 1))

/-- Main loop of `lex` from `src/inlay/mod.rs`.  One fuel unit per loop
iteration; each iteration strictly increases `i`, so the `bs.length + 1`
provided by `lex` never runs out. -/
def lexAux (bs : List Nat) : Nat → Nat → List Token
  | 0, _ => []
  | fuel + 1, i =>
    if i < bs.length then
      let b := byteAt bs i
      if isWsB b then lexAux bs fuel (i + 1)
      else if b = 47 ∧ i + 1 < bs.length ∧ byteAt bs (i + 1) = 47 then
        lexAux bs fuel (scanWhileB bs (fun x => x ≠ 10) (bs.length + 2) (i + 2))
      else if b = 47 ∧ i + 1 < bs.length ∧ byteAt bs (i + 1) = 42 then
        lexAux bs fuel (blockCommentEnd bs (bs.length + 2) (i + 2))
      else
        match skip_string_literal bs i with
        | some next => lexAux bs fuel next
        | none =>
          if b = 39 then
            match lex_lifetime_or_char bs i with
            | (some t, next) => t :: lexAux bs fuel next
            | (none, next) => lexAux bs fuel next
          else if is_ident_start b then
            let j := scanWhileB bs is_ident_continue (bs.length + 2) (i + 1)
            ⟨.ident (extractB bs i j), i, j⟩ :: lexAux bs fuel j
          else if isDigitB b then
            let j := scanWhileB bs numContinue (bs.length + 2) (i + 1)
            ⟨.number, i, j⟩ :: lexAux bs fuel j
          else if b = 58 ∧ i + 1 < bs.length ∧ byteAt bs (i + 1) = 58 then
            ⟨.doubleColon, i, i + 2⟩ :: lexAux bs fuel (i + 2)
          else if b = 45 ∧ i + 1 < bs.length ∧ byteAt bs (i + 1) = 62 then
            ⟨.arrow, i, i + 2⟩ :: lexAux bs fuel (i + 2)
          else
            ⟨.punct b, i, i + 1⟩ :: lexAux bs fuel (i + 1)
    else []

/-- `lex` from `src/inlay/mod.rs`, on a byte sequence. -/
def lex (bs : List Nat) : List Token :=
  lexAux bs (bs.length + 1) 0

/-- `lex` on a document string. -/
def lexText (text : List Char) : List Token :=
  lex (bytesOf text)

/-- The token spans are in-bounds, non-empty, pairwise disjoint and in
strictly increasing order, with the first span starting at or after `i`. -/
def Spaced (len : Nat) : Nat → List Token → Prop
  | _, [] => True
  | i, t :: rest => i ≤ t.start ∧ t.start < t.stop ∧ t.stop ≤ len ∧ Spaced len t.stop rest

/-- Concatenate the token spans together with the discarded gaps between
them (and before/after them), starting from byte `cur`. -/
def reassemble (bs : List Nat) : Nat → List Token → List Nat
  | cur, [] => extractB bs cur bs.length
  | cur, t :: rest =>
    extractB bs cur t.start ++ extractB bs t.start t.stop ++ reassemble bs t.stop rest

/-! ## Signature parser (`src/inlay/mod.rs`) -/

/-- `GenericParamKind` from `src/inlay/mod.rs`. -/
inductive GenericParamKind where
  | const
  | type
  | lifetime
deriving DecidableEq

/-- `GenericParam` from `src/inlay/mod.rs`. -/
structure GenericParam where
  name : List Nat
  kind : GenericParamKind
deriving DecidableEq

/-- `FunctionSig` from `src/inlay/mod.rs`. -/
structure FunctionSig where
  params : List (List Nat)
  return_type : Option (List Nat)
  generics : List GenericParam
  has_self : Bool
deriving DecidableEq

/-- `tokens[i]` under the source's bounds guards. -/
def tokAtD (ts : List Token) (i : Nat) : Token :=
  ts.getD i ⟨.punct 0, 0, 0⟩

/-- The token sub-slice `tokens[a..b]`. -/
def sliceT (ts : List Token) (a b : Nat) : List Token :=
  (ts.drop a).take (b - a)

/-- Loop of `find_matching_paren` (depth is the source's `i32`). -/
def findParenGo : List Token → Nat → Int → Option Nat
  | [], _, _ => none
  | t :: rest, pos, depth =>
    match t.kind with
    | .punct 40 => findParenGo rest (pos + 1) (depth + 1)
    | .punct 41 =>
      if depth - 1 = 0 then some pos else findParenGo rest (pos + 1) (depth - 1)
    | _ => findParenGo rest (pos + 1) depth

/-- `find_matching_paren` from `src/inlay/mod.rs`. -/
def find_matching_paren (ts : List Token) (idx : Nat) : Option Nat :=
  findParenGo (ts.drop idx) idx 0

/-- Loop of `find_matching_angle`. -/
def findAngleGo : List Token → Nat → Int → Option Nat
  | [], _, _ => none
  | t :: rest, pos, depth =>
    match t.kind with
    | .punct 60 => findAngleGo rest (pos + 1) (depth + 1)
    | .punct 62 =>
      if depth - 1 = 0 then some pos else findAngleGo rest (pos + 1) (depth - 1)
    | _ => findAngleGo rest (pos + 1) depth

/-- `find_matching_angle` from `src/inlay/mod.rs`. -/
def find_matching_angle (ts : List Token) (idx : Nat) : Option Nat :=
  findAngleGo (ts.drop idx) idx 0

/-- `find_matching_angle_backward` from `src/inlay/mod.rs` (walk from `idx`
down to 0; `>` opens, `<` closes; report the index where depth reaches
zero). -/
def find_matching_angle_backward (ts : List Token) : Nat → Int → Option Nat
  | 0, depth =>
    match (tokAtD ts 0).kind with
    | .punct 60 => if depth - 1 = 0 then some 0 else none
    | _ => none
  | i + 1, depth =>
    match (tokAtD ts (i + 1)).kind with
    | .punct 62 => find_matching_angle_backward ts i (depth + 1)
    | .punct 60 =>
      if depth - 1 = 0 then some (i + 1)
      else find_matching_angle_backward ts i (depth - 1)
    | _ => find_matching_angle_backward ts i depth

/-- First identifier in a token run (inner loop of `parse_generic_param`). -/
def firstIdentTok : List Token → Option (List Nat)
  | [] => none
  | t :: rest =>
    match t.kind with
    | .ident n => some n
    | _ => firstIdentTok rest

/-- `parse_generic_param` from `src/inlay/mod.rs`. -/
def parse_generic_param : List Token → Option GenericParam
  | [] => none
  | t :: rest =>
    match t.kind with
    | .lifetime name => some ⟨name, .lifetime⟩
    | .ident name =>
      if name = kw "const" then
        match firstIdentTok rest with
        | some param => some ⟨param, .const⟩
        | none => none
      else some ⟨name, .type⟩
    | _ => parse_generic_param rest

/-- Fold state of `parse_generic_params` (accumulated segments, current
segment, and the four `i32` depth counters, which the source never lets go
below zero). -/
structure GpState where
  params : List GenericParam
  current : List Token
  angle : Nat
  paren : Nat
  bracket : Nat
  brace : Nat

/-- One step of the `parse_generic_params` loop. -/
def gpStep (st : GpState) (t : Token) : GpState :=
  match t.kind with
  | .punct 60 => { st with angle := st.angle + 1, current := st.current ++ [t] }
  | .punct 62 => { st with angle := st.angle - 1, current := st.current ++ [t] }
  | .punct 40 => { st with paren := st.paren + 1, current := st.current ++ [t] }
  | .punct 41 => { st with paren := st.paren - 1, current := st.current ++ [t] }
  | .punct 91 => { st with bracket := st.bracket + 1, current := st.current ++ [t] }
  | .punct 93 => { st with bracket := st.bracket - 1, current := st.current ++ [t] }
  | .punct 123 => { st with brace := st.brace + 1, current := st.current ++ [t] }
  | .punct 125 => { st with brace := st.brace - 1, current := st.current ++ [t] }
  | .punct 44 =>
    if st.angle = 0 ∧ st.paren = 0 ∧ st.bracket = 0 ∧ st.brace = 0 then
      match parse_generic_param st.current with
      | some p => { st with params := st.params ++ [p], current := [] }
      | none => { st with current := [] }
    else { st with current := st.current ++ [t] }
  | _ => { st with current := st.current ++ [t] }

/-- `parse_generic_params` from `src/inlay/mod.rs`. -/
def parse_generic_params (ts : List Token) (start stop : Nat) : List GenericParam :=
  let st := (sliceT ts start stop).foldl gpStep ⟨[], [], 0, 0, 0, 0⟩
  if st.current = [] then st.params
  else
    match parse_generic_param st.current with
    | some p => st.params ++ [p]
    | none => st.params

/-- `parse_generics` from `src/inlay/mod.rs`. -/
def parse_generics (ts : List Token) (idx : Nat) : Option (List GenericParam × Nat) :=
  if ¬ (tokAtD ts idx).isPunct 60 then none
  else
    match find_matching_angle ts idx with
    | none => none
    | some endIdx => some (parse_generic_params ts (idx + 1) endIdx, endIdx + 1)

/-- `parse_param_name` from `src/inlay/mod.rs`. -/
def parse_param_name : List Token → Option (List Nat)
  | [] => none
  | t :: rest =>
    match t.kind with
    | .ident name =>
      if name = kw "mut" ∨ name = kw "ref" ∨ name = kw "const" then
        parse_param_name rest
      else some name
    | _ => parse_param_name rest

/-- Fold state of `parse_params`. -/
structure PpState where
  params : List (List Nat)
  current : List Token
  paren : Nat
  bracket : Nat
  brace : Nat

/-- One step of the `parse_params` loop. -/
def ppStep (st : PpState) (t : Token) : PpState :=
  match t.kind with
  | .punct 40 => { st with paren := st.paren + 1, current := st.current ++ [t] }
  | .punct 41 => { st with paren := st.paren - 1, current := st.current ++ [t] }
  | .punct 91 => { st with bracket := st.bracket + 1, current := st.current ++ [t] }
  | .punct 93 => { st with bracket := st.bracket - 1, current := st.current ++ [t] }
  | .punct 123 => { st with brace := st.brace + 1, current := st.current ++ [t] }
  | .punct 125 => { st with brace := st.brace - 1, current := st.current ++ [t] }
  | .punct 44 =>
    if st.paren = 0 ∧ st.bracket = 0 ∧ st.brace = 0 then
      match parse_param_name st.current with
      | some n => { st with params := st.params ++ [n], current := [] }
      | none => { st with current := [] }
    else { st with current := st.current ++ [t] }
  | _ => { st with current := st.current ++ [t] }

/-- `parse_params` from `src/inlay/mod.rs`. -/
def parse_params (ts : List Token) (start stop : Nat) : List (List Nat) :=
  let st := (sliceT ts start stop).foldl ppStep ⟨[], [], 0, 0, 0⟩
  if st.current = [] then st.params
  else
    match parse_param_name st.current with
    | some n => st.params ++ [n]
    | none => st.params

/-- ASCII-whitespace byte test used for `str::trim` (the sources only ever
trim ASCII source text; the Unicode cases of `str::trim` do not arise in
the properties below). -/
def trimBytes (bs : List Nat) : List Nat :=
  ((bs.dropWhile isWsB).reverse.dropWhile isWsB).reverse

/-- Loop of `parse_return_type`: find the first `{`, `;` or `where` at
depth zero; its start offset ends the return-type spelling, which otherwise
runs to the end of the text. -/
def retEndGo (bs : List Nat) : List Token → Nat → Nat → Nat → Nat
  | [], _, _, _ => bs.length
  | t :: rest, a, p, k =>
    match t.kind with
    | .punct 123 => if a = 0 ∧ p = 0 ∧ k = 0 then t.start else retEndGo bs rest a p k
    | .punct 59 => if a = 0 ∧ p = 0 ∧ k = 0 then t.start else retEndGo bs rest a p k
    | .ident name =>
      if name = kw "where" ∧ a = 0 ∧ p = 0 ∧ k = 0 then t.start
      else retEndGo bs rest a p k
    | .punct 60 => retEndGo bs rest (a + 1) p k
    | .punct 62 => retEndGo bs rest (a - 1) p k
    | .punct 40 => retEndGo bs rest a (p + 1) k
    | .punct 41 => retEndGo bs rest a (p - 1) k
    | .punct 91 => retEndGo bs rest a p (k + 1)
    | .punct 93 => retEndGo bs rest a p (k - 1)
    | _ => retEndGo bs rest a p k

/-- `parse_return_type` from `src/inlay/mod.rs`. -/
def parse_return_type (bs : List Nat) (ts : List Token) (start : Nat) :
    Option (List Nat) :=
  if ts.length ≤ start then none
  else if (tokAtD ts start).kind ≠ .arrow then none
  else
    let arrowEnd := (tokAtD ts start).stop
    let endOffset := retEndGo bs (ts.drop (start + 1)) 0 0 0
    let slice := trimBytes (extractB bs arrowEnd endOffset)
    if slice = [] then none else some slice

/-- `parse_fn_def` from `src/inlay/mod.rs`. -/
def parse_fn_def (bs : List Nat) (ts : List Token) (idx : Nat) :
    Option (List Nat × FunctionSig × Nat) :=
  match ts[idx + 1]? with
  | none => none
  | some nameTok =>
    match nameTok.identName with
    | none => none
    | some name =>
      let i := idx + 2
      let gi : List GenericParam × Nat :=
        if i < ts.length ∧ (tokAtD ts i).isPunct 60 then
          match parse_generics ts i with
          | some (parsed, nextI) => (parsed, nextI)
          | none => ([], i)
        else ([], i)
      let generics := gi.1
      let i := gi.2
      if ¬ (i < ts.length ∧ (tokAtD ts i).isPunct 40) then none
      else
        match find_matching_paren ts i with
        | none => none
        | some closeIdx =>
          let params := parse_params ts (i + 1) closeIdx
          let has_self := params.head? = some (kw "self")
          let return_type := parse_return_type bs ts (closeIdx + 1)
          some (name, ⟨params, return_type, generics, has_self⟩, closeIdx + 1)

/-- `parse_type_def` from `src/inlay/mod.rs`. -/
def parse_type_def (ts : List Token) (idx : Nat) :
    Option (List Nat × List GenericParam × Nat) :=
  match ts[idx + 1]? with
  | none => none
  | some nameTok =>
    match nameTok.identName with
    | none => none
    | some name =>
      let i := idx + 2
      let gi : List GenericParam × Nat :=
        if i < ts.length ∧ (tokAtD ts i).isPunct 60 then
          match parse_generics ts i with
          | some (parsed, nextI) => (parsed, nextI)
          | none => ([], i)
        else ([], i)
      some (name, gi.1, gi.2)

/-! ## Workspace index (`src/inlay/mod.rs`) -/

/-- `WorkspaceIndex` (each `HashMap` as an association list with at most one
entry per key). -/
structure WorkspaceIndex where
  fn_defs : List (List Nat × List FunctionSig)
  method_defs : List (List Nat × List FunctionSig)
  generics : List (List Nat × List (List GenericParam))
  type_names : List (List Nat × Nat)
deriving DecidableEq

/-- `WorkspaceIndex::default()`. -/
def emptyIndex : WorkspaceIndex := ⟨[], [], [], []⟩

/-- `HashMap::get` on the association list. -/
def alGet {κ α : Type} [DecidableEq κ] (m : List (κ × α)) (k : κ) : Option α :=
  (m.find? (fun e => e.1 = k)).map (·.2)

/-- `map.entry(k).or_default().push(v)`. -/
def alPush {κ α : Type} [DecidableEq κ] (m : List (κ × List α)) (k : κ) (v : α) :
    List (κ × List α) :=
  match alGet m k with
  | some _ => m.map (fun e => if e.1 = k then (e.1, e.2 ++ [v]) else e)
  | none => m ++ [(k, [v])]

/-- `*map.entry(k).or_insert(0) += 1`. -/
def alBump {κ : Type} [DecidableEq κ] (m : List (κ × Nat)) (k : κ) :
    List (κ × Nat) :=
  match alGet m k with
  | some _ => m.map (fun e => if e.1 = k then (e.1, e.2 + 1) else e)
  | none => m ++ [(k, 1)]

/-- `WorkspaceIndex::add_fn`. -/
def WorkspaceIndex.add_fn (idx : WorkspaceIndex) (name : List Nat)
    (sig : FunctionSig) : WorkspaceIndex :=
  { idx with fn_defs := alPush idx.fn_defs name sig }

/-- `WorkspaceIndex::add_method`. -/
def WorkspaceIndex.add_method (idx : WorkspaceIndex) (name : List Nat)
    (sig : FunctionSig) : WorkspaceIndex :=
  { idx with method_defs := alPush idx.method_defs name sig }

/-- `WorkspaceIndex::add_generics` (empty lists are never stored). -/
def WorkspaceIndex.add_generics (idx : WorkspaceIndex) (name : List Nat)
    (gs : List GenericParam) : WorkspaceIndex :=
  if gs = [] then idx
  else { idx with generics := alPush idx.generics name gs }

/-- `WorkspaceIndex::unique_fn`. -/
def WorkspaceIndex.unique_fn (idx : WorkspaceIndex) (name : List Nat) :
    Option FunctionSig :=
  match alGet idx.fn_defs name with
  | some items => if items.length = 1 then items.head? else none
  | none => none

/-- `WorkspaceIndex::unique_method`. -/
def WorkspaceIndex.unique_method (idx : WorkspaceIndex) (name : List Nat) :
    Option FunctionSig :=
  match alGet idx.method_defs name with
  | some items => if items.length = 1 then items.head? else none
  | none => none

/-- `WorkspaceIndex::unique_generics`. -/
def WorkspaceIndex.unique_generics (idx : WorkspaceIndex) (name : List Nat) :
    Option (List GenericParam) :=
  match alGet idx.generics name with
  | some items => if items.length = 1 then items.head? else none
  | none => none

/-- `WorkspaceIndex::is_unique_type`. -/
def WorkspaceIndex.is_unique_type (idx : WorkspaceIndex) (name : List Nat) : Bool :=
  (alGet idx.type_names name).getD 0 = 1

/-- One `fn` hit of `collect_defs`: add the signature, its generics, and —
for a `self` receiver — the method entry with `self` stripped. -/
def collectFnHit (idx : WorkspaceIndex) (name : List Nat) (sig : FunctionSig) :
    WorkspaceIndex :=
  let idx := idx.add_fn name sig
  let idx := idx.add_generics name sig.generics
  if sig.has_self then
    idx.add_method name ⟨sig.params.tail, sig.return_type, sig.generics, false⟩
  else idx

/-- Loop of `WorkspaceIndex::collect_defs` (fuelled; every continuation
strictly increases the token index). -/
def collectDefsAux (bs : List Nat) (ts : List Token) :
    Nat → Nat → WorkspaceIndex → WorkspaceIndex
  | 0, _, idx => idx
  | fuel + 1, i, idx =>
    match ts[i]? with
    | none => idx
    | some t =>
      if t.isIdent (kw "fn") then
        match parse_fn_def bs ts i with
        | some (name, sig, nextI) =>
          collectDefsAux bs ts fuel nextI (collectFnHit idx name sig)
        | none => collectDefsAux bs ts fuel (i + 1) idx
      else if t.isIdent (kw "struct") ∨ t.isIdent (kw "enum") ∨
          t.isIdent (kw "trait") ∨ t.isIdent (kw "type") then
        match parse_type_def ts i with
        | some (name, gens, nextI) =>
          collectDefsAux bs ts fuel nextI
            { (idx.add_generics name gens) with
              type_names := alBump (idx.add_generics name gens).type_names name }
        | none => collectDefsAux bs ts fuel (i + 1) idx
      else collectDefsAux bs ts fuel (i + 1) idx

/-- `WorkspaceIndex::add_source`. -/
def WorkspaceIndex.add_source (idx : WorkspaceIndex) (text : List Char) :
    WorkspaceIndex :=
  let bs := bytesOf text
  let ts := lex bs
  collectDefsAux bs ts (ts.length + 1) 0 idx

/-- `WorkspaceIndex::build`, with the sources already listed: the open
documents first, then the `.rs` files the workspace walk reads (the
filesystem walk itself only determines this list). -/
def WorkspaceIndex.buildFrom (sources : List (List Char)) : WorkspaceIndex :=
  sources.foldl WorkspaceIndex.add_source emptyIndex

/-! ## Expression recognizers and calls (`src/inlay/mod.rs`) -/

/-- `is_keyword` from `src/inlay/mod.rs`. -/
def is_keyword (name : List Nat) : Bool :=
  name ∈ [kw "if", kw "while", kw "for", kw "match", kw "loop", kw "return",
    kw "fn", kw "struct", kw "enum", kw "trait", kw "type", kw "impl",
    kw "pub", kw "use", kw "const", kw "static", kw "async", kw "await",
    kw "move", kw "unsafe", kw "extern", kw "crate", kw "super", kw "self"]

/-- `CallKind` from `src/inlay/mod.rs`. -/
inductive CallKind where
  | function
  | method
deriving DecidableEq

/-- `Call` from `src/inlay/mod.rs`. -/
structure Call where
  name : List Nat
  kind : CallKind
  arg_starts : List Nat
  close_paren : Nat
deriving DecidableEq

/-- `detect_call_name` from `src/inlay/mod.rs`. -/
def detect_call_name (ts : List Token) (idx : Nat) : Option (List Nat × CallKind) :=
  if idx = 0 then none
  else
    let j0 := idx - 1
    let jOpt : Option Nat :=
      if (tokAtD ts j0).isPunct 62 then
        match find_matching_angle_backward ts j0 0 with
        | none => none
        | some j1 => if j1 = 0 then none else some (j1 - 1)
      else some j0
    match jOpt with
    | none => none
    | some j1 =>
      let jOpt2 : Option Nat :=
        if (tokAtD ts j1).kind = .doubleColon then
          if j1 = 0 then none else some (j1 - 1)
        else some j1
      match jOpt2 with
      | none => none
      | some j =>
        match (tokAtD ts j).identName with
        | none => none
        | some name =>
          if is_keyword name then none
          else if 0 < j ∧ ((tokAtD ts (j - 1)).identName.any (fun p =>
              p = kw "fn" ∨ p = kw "struct" ∨ p = kw "enum" ∨ p = kw "trait" ∨
              p = kw "type" ∨ p = kw "impl") ∨ (tokAtD ts (j - 1)).isPunct 33) then
            none
          else
            let k := if 0 < j ∧ (tokAtD ts (j - 1)).isPunct 46 then
              CallKind.method else CallKind.function
            some (name, k)

/-- Fold state of `parse_arg_starts` / `parse_generic_arg_starts`. -/
structure ArgState where
  args : List Nat
  argStart : Option Nat
  paren : Nat
  bracket : Nat
  brace : Nat
  angle : Nat

/-- Record the current token as an argument start when all depths are zero
and no start is pending (the tail of each loop iteration). -/
def argRecord (st : ArgState) (t : Token) : ArgState :=
  if st.paren = 0 ∧ st.bracket = 0 ∧ st.brace = 0 ∧ st.angle = 0 ∧
      st.argStart = none then
    { st with argStart := some t.start }
  else st

/-- One step of the `parse_arg_starts` loop (the comma branch `continue`s
past the recording step; all other branches fall through to it). -/
def argStep (st : ArgState) (t : Token) : ArgState :=
  match t.kind with
  | .punct 40 => argRecord { st with paren := st.paren + 1 } t
  | .punct 41 => argRecord { st with paren := st.paren - 1 } t
  | .punct 91 => argRecord { st with bracket := st.bracket + 1 } t
  | .punct 93 => argRecord { st with bracket := st.bracket - 1 } t
  | .punct 123 => argRecord { st with brace := st.brace + 1 } t
  | .punct 125 => argRecord { st with brace := st.brace - 1 } t
  | .punct 60 => argRecord { st with angle := st.angle + 1 } t
  | .punct 62 => argRecord { st with angle := st.angle - 1 } t
  | .punct 44 =>
    if st.paren = 0 ∧ st.bracket = 0 ∧ st.brace = 0 ∧ st.angle = 0 then
      match st.argStart with
      | some s => { st with args := st.args ++ [s], argStart := none }
      | none => st
    else argRecord st t
  | _ => argRecord st t

/-- `parse_arg_starts` from `src/inlay/mod.rs`. -/
def parse_arg_starts (ts : List Token) (start stop : Nat) : List Nat :=
  let st := (sliceT ts start stop).foldl argStep ⟨[], none, 0, 0, 0, 0⟩
  match st.argStart with
  | some s => st.args ++ [s]
  | none => st.args

/-- `parse_generic_arg_starts` from `src/inlay/mod.rs` (its body is token
for token the body of `parse_arg_starts`). -/
def parse_generic_arg_starts (ts : List Token) (start stop : Nat) : List Nat :=
  parse_arg_starts ts start stop

/-- Loop of `collect_calls` (on a call hit, the scan resumes at the closing
parenthesis). -/
def collectCallsAux (ts : List Token) : Nat → Nat → List Call
  | 0, _ => []
  | fuel + 1, i =>
    match ts[i]? with
    | none => []
    | some t =>
      if t.isPunct 40 then
        match detect_call_name ts i with
        | some (name, k) =>
          match find_matching_paren ts i with
          | some closeIdx =>
            ⟨name, k, parse_arg_starts ts (i + 1) closeIdx,
              (tokAtD ts closeIdx).start⟩ :: collectCallsAux ts fuel closeIdx
          | none => collectCallsAux ts fuel (i + 1)
        | none => collectCallsAux ts fuel (i + 1)
      else collectCallsAux ts fuel (i + 1)

/-- `collect_calls` from `src/inlay/mod.rs` (it lexes its own input). -/
def collect_calls (bs : List Nat) : List Call :=
  let ts := lex bs
  collectCallsAux ts (ts.length + 1) 0

/-- `infer_string_literal` from `src/inlay/mod.rs`. -/
def infer_string_literal (s : List Nat) : Option (List Nat) :=
  if (kw "b\"").isPrefixOf s ∨ (kw "br\"").isPrefixOf s ∨ (kw "br#").isPrefixOf s then
    some (kw "&[u8]")
  else if (kw "\"").isPrefixOf s ∨ (kw "r\"").isPrefixOf s ∨ (kw "r#").isPrefixOf s then
    some (kw "&str")
  else none

/-- `is_char_literal` from `src/inlay/mod.rs`. -/
def is_char_literal (s : List Nat) : Bool :=
  2 ≤ s.length ∧ s.head? = some 39 ∧ s.getLast? = some 39

/-- Scanning loop of `infer_number_literal`: returns `has_digit`,
`has_dot`, `has_exp` and the unconsumed tail. -/
def numScan : List Nat → Bool → Bool → Bool → Bool × Bool × Bool × List Nat
  | [], d, o, e => (d, o, e, [])
  | b :: rest, d, o, e =>
    if isDigitB b ∨ b = 95 then numScan rest true o e
    else if b = 46 ∧ ¬o ∧ ¬e then numScan rest d true e
    else if (b = 101 ∨ b = 69) ∧ d ∧ ¬e then
      match rest with
      | s :: rest2 =>
        if s = 43 ∨ s = 45 then numScan rest2 d o true
        else numScan (s :: rest2) d o true
      | [] => (d, o, true, [])
    else (d, o, e, b :: rest)

/-- `infer_number_literal` from `src/inlay/mod.rs`. -/
def infer_number_literal (s0 : List Nat) : Option (List Nat) :=
  let s1 := trimBytes s0
  let s := if s1.take 1 = [45] then s1.drop 1 else s1
  if s = [] then none
  else
    let r := numScan s false false false
    if ¬ r.1 then none
    else
      let suffix := trimBytes r.2.2.2
      if suffix ≠ [] ∧ suffix ∈ [kw "u8", kw "u16", kw "u32", kw "u64",
          kw "u128", kw "usize", kw "i8", kw "i16", kw "i32", kw "i64",
          kw "i128", kw "isize", kw "f32", kw "f64"] then
        some suffix
      else if r.2.1 ∨ r.2.2.1 then some (kw "f64")
      else some (kw "i32")

/-- Inner `::`-segment walk of `infer_struct_literal`. -/
def segWalk (ts : List Token) : Nat → Nat → List Nat → List Nat × Nat
  | 0, i, name => (name, i)
  | fuel + 1, i, name =>
    if i + 1 < ts.length ∧ (tokAtD ts i).kind = .doubleColon then
      match (tokAtD ts (i + 1)).identName with
      | some next => segWalk ts fuel (i + 2) next
      | none => (name, i)
    else (name, i)

/-- `infer_struct_literal` from `src/inlay/mod.rs`. -/
def infer_struct_literal (expr : List Nat) (index : WorkspaceIndex) :
    Option (List Nat) :=
  let ts := lex expr
  match ts[0]? with
  | none => none
  | some t =>
    match t.identName with
    | none => none
    | some n0 =>
      let ni := segWalk ts (ts.length + 1) 1 n0
      match ts[ni.2]? with
      | none => none
      | some next =>
        if (next.isPunct 123 ∨ next.isPunct 40) ∧ index.is_unique_type ni.1 then
          some ni.1
        else none

/-- `infer_from_call` from `src/inlay/mod.rs`. -/
def infer_from_call (expr : List Nat) (index : WorkspaceIndex) :
    Option (List Nat) :=
  match (collect_calls expr).getLast? with
  | none => none
  | some call =>
    match call.kind with
    | .method => (index.unique_method call.name).bind (·.return_type)
    | .function =>
      match (index.unique_fn call.name).bind (·.return_type) with
      | some ret => some ret
      | none =>
        if index.is_unique_type call.name then some call.name else none

/-- `infer_type` from `src/inlay/mod.rs` (the classifier chain). -/
def infer_type (expr : List Nat) (index : WorkspaceIndex) : Option (List Nat) :=
  let trimmed := trimBytes expr
  if trimmed = [] then none
  else if trimmed = kw "true" ∨ trimmed = kw "false" then some (kw "bool")
  else if is_char_literal trimmed then some (kw "char")
  else
    match infer_string_literal trimmed with
    | some lit => some lit
    | none =>
      match infer_number_literal trimmed with
      | some num => some num
      | none =>
        match infer_struct_literal trimmed index with
        | some ty => some ty
        | none => infer_from_call trimmed index

/-! ## Inlay hints (`src/inlay/mod.rs`) -/

/-- `lsp_types::InlayHintKind` (only `TYPE` and `PARAMETER` are used). -/
inductive InlayHintKind where
  | type
  | parameter
deriving DecidableEq

/-- `lsp_types::InlayHint` as the sources populate it (label as its UTF-8
text; the remaining fields are always `None`). -/
structure InlayHint where
  position : Position
  label : List Nat
  kind : InlayHintKind
deriving DecidableEq

/-- `type_hint` from `src/inlay/mod.rs` (label `": {ty}"`). -/
def type_hint (pos : Position) (ty : List Nat) : InlayHint :=
  ⟨pos, kw ": " ++ ty, .type⟩

/-- `param_hint` from `src/inlay/mod.rs` (label `"{name}:"`). -/
def param_hint (pos : Position) (name : List Nat) : InlayHint :=
  ⟨pos, name ++ kw ":", .parameter⟩

/-- Scan of the `let ... =` head: track bracket depth; a `:` at depth zero
sets `has_type`; a `=` at depth zero ends the scan with its index; a `;` at
depth zero or the end of the tokens ends it without one. -/
def scanLet (ts : List Token) : Nat → Nat → Nat → Bool → Bool × Option Nat
  | 0, _, _, hasType => (hasType, none)
  | fuel + 1, j, depth, hasType =>
    match ts[j]? with
    | none => (hasType, none)
    | some t =>
      match t.kind with
      | .punct 40 => scanLet ts fuel (j + 1) (depth + 1) hasType
      | .punct 91 => scanLet ts fuel (j + 1) (depth + 1) hasType
      | .punct 123 => scanLet ts fuel (j + 1) (depth + 1) hasType
      | .punct 41 => scanLet ts fuel (j + 1) (depth - 1) hasType
      | .punct 93 => scanLet ts fuel (j + 1) (depth - 1) hasType
      | .punct 125 => scanLet ts fuel (j + 1) (depth - 1) hasType
      | .punct 58 =>
        if depth = 0 then scanLet ts fuel (j + 1) depth true
        else scanLet ts fuel (j + 1) depth hasType
      | .punct 61 =>
        if depth = 0 then (hasType, some j)
        else scanLet ts fuel (j + 1) depth hasType
      | .punct 59 =>
        if depth = 0 then (hasType, none)
        else scanLet ts fuel (j + 1) depth hasType
      | _ => scanLet ts fuel (j + 1) depth hasType

/-- Scan for the `;` (at depth zero) ending the initializer; its start
offset bounds the expression, which otherwise runs to the end of the
text. -/
def scanSemi (bs : List Nat) (ts : List Token) : Nat → Nat → Nat → Nat
  | 0, _, _ => bs.length
  | fuel + 1, k, depth =>
    match ts[k]? with
    | none => bs.length
    | some t =>
      match t.kind with
      | .punct 40 => scanSemi bs ts fuel (k + 1) (depth + 1)
      | .punct 91 => scanSemi bs ts fuel (k + 1) (depth + 1)
      | .punct 123 => scanSemi bs ts fuel (k + 1) (depth + 1)
      | .punct 41 => scanSemi bs ts fuel (k + 1) (depth - 1)
      | .punct 93 => scanSemi bs ts fuel (k + 1) (depth - 1)
      | .punct 125 => scanSemi bs ts fuel (k + 1) (depth - 1)
      | .punct 59 =>
        if depth = 0 then t.start else scanSemi bs ts fuel (k + 1) depth
      | _ => scanSemi bs ts fuel (k + 1) depth

/-- One iteration of the `local_var_type_hints` loop at token index `i`
(the loop always advances by one token, so the emitted hints are exactly
the successes of this step over all indices). -/
def letHintAt (text : List Char) (index : WorkspaceIndex) (i : Nat) :
    Option InlayHint :=
  let bs := bytesOf text
  let ts := lexText text
  match ts[i]? with
  | none => none
  | some t =>
    if ¬ t.isIdent (kw "let") then none
    else if 0 < i ∧ (tokAtD ts (i - 1)).identName.any (fun p =>
        p = kw "if" ∨ p = kw "while" ∨ p = kw "match" ∨ p = kw "for") then
      none
    else
      let j0 := i + 1
      let j1 := if (ts[j0]?).any (·.isIdent (kw "mut")) then j0 + 1 else j0
      match ts[j1]? with
      | none => none
      | some varTok =>
        match varTok.identName with
        | none => none
        | some varName =>
          if varName = kw "_" then none
          else
            let r := scanLet ts (ts.length + 1) (j1 + 1) 0 false
            if r.1 then none
            else
              match r.2 with
              | none => none
              | some eqIdx =>
                let endOffset := scanSemi bs ts (ts.length + 1) (eqIdx + 1) 0
                let expr := trimBytes (extractB bs (tokAtD ts eqIdx).stop endOffset)
                match infer_type expr index with
                | none => none
                | some ty =>
                  match offset_to_position text varTok.stop with
                  | none => none
                  | some pos => some (type_hint pos ty)

/-- `local_var_type_hints` from `src/inlay/mod.rs`. -/
def local_var_type_hints (text : List Char) (index : WorkspaceIndex) :
    List InlayHint :=
  (List.range (lexText text).length).filterMap (letHintAt text index)

/-- Hints one call contributes in `arg_name_hints`. -/
def hintsForCall (text : List Char) (index : WorkspaceIndex) (call : Call) :
    List InlayHint :=
  let sigOpt := match call.kind with
    | .function => index.unique_fn call.name
    | .method => index.unique_method call.name
  match sigOpt with
  | none => []
  | some sig =>
    (List.range (min sig.params.length call.arg_starts.length)).filterMap
      (fun k =>
        let p := sig.params.getD k []
        if p = [] ∨ p = kw "_" then none
        else (offset_to_position text (call.arg_starts.getD k 0)).map
          (fun pos => param_hint pos p))

/-- `arg_name_hints` from `src/inlay/mod.rs`. -/
def arg_name_hints (text : List Char) (index : WorkspaceIndex) :
    List InlayHint :=
  (collect_calls (bytesOf text)).flatMap (hintsForCall text index)

/-- `generic_follows` from `src/inlay/mod.rs`. -/
def generic_follows (ts : List Token) (endIdx : Nat) : Bool :=
  if ts.length ≤ endIdx + 1 then true
  else
    match (tokAtD ts (endIdx + 1)).kind with
    | .punct 40 => true
    | .punct 123 => true
    | .punct 41 => true
    | .punct 44 => true
    | .punct 59 => true
    | .punct 58 => true
    | .punct 46 => true
    | .punct 93 => true
    | .punct 62 => true
    | .punct 61 => true
    | .doubleColon => true
    | _ => false

/-- `detect_generic_arg_list` from `src/inlay/mod.rs`. -/
def detect_generic_arg_list (ts : List Token) (idx : Nat) :
    Option (List Nat × Nat) :=
  if idx = 0 then none
  else
    let j0 := idx - 1
    let nameIdxOpt : Option Nat :=
      if (tokAtD ts j0).kind = .doubleColon then
        if j0 = 0 then none else some (j0 - 1)
      else some j0
    match nameIdxOpt with
    | none => none
    | some nameIdx =>
      match (tokAtD ts nameIdx).identName with
      | none => none
      | some name =>
        if is_keyword name then none
        else if 0 < nameIdx ∧ (tokAtD ts (nameIdx - 1)).identName.any (fun p =>
            p = kw "struct" ∨ p = kw "enum" ∨ p = kw "trait" ∨
            p = kw "type" ∨ p = kw "fn") then
          none
        else
          match find_matching_angle ts idx with
          | none => none
          | some endIdx =>
            if endIdx ≤ idx + 1 then none
            else if ¬ generic_follows ts endIdx then none
            else some (name, endIdx)

/-- Loop of `const_generic_hints` (on a hit, the scan resumes just past the
closing angle bracket). -/
def cgAux (text : List Char) (index : WorkspaceIndex) (ts : List Token) :
    Nat → Nat → List InlayHint
  | 0, _ => []
  | fuel + 1, i =>
    match ts[i]? with
    | none => []
    | some t =>
      if t.isPunct 60 then
        match detect_generic_arg_list ts i with
        | some (name, endIdx) =>
          let args := parse_generic_arg_starts ts (i + 1) endIdx
          let hs := match index.unique_generics name with
            | some gens =>
              (List.range (min gens.length args.length)).filterMap (fun k =>
                let g := gens.getD k ⟨[], .type⟩
                if g.kind = .const then
                  (offset_to_position text (args.getD k 0)).map
                    (fun pos => param_hint pos g.name)
                else none)
            | none => []
          hs ++ cgAux text index ts fuel (endIdx + 1)
        | none => cgAux text index ts fuel (i + 1)
      else cgAux text index ts fuel (i + 1)

/-- `const_generic_hints` from `src/inlay/mod.rs`. -/
def const_generic_hints (text : List Char) (index : WorkspaceIndex) :
    List InlayHint :=
  let ts := lexText text
  cgAux text index ts (ts.length + 1) 0

/-- `is_chained_call` from `src/inlay/mod.rs` (skip whitespace after the
`)`; a `.`, or a `?` with a `.` after more whitespace, chains). -/
def is_chained_call (bs : List Nat) (close_paren : Nat) : Bool :=
  let i := scanWhileB bs isWsB (bs.length + 2) (close_paren + 1)
  if i < bs.length ∧ byteAt bs i = 46 then true
  else if i < bs.length ∧ byteAt bs i = 63 then
    let j := scanWhileB bs isWsB (bs.length + 2) (i + 1)
    j < bs.length ∧ byteAt bs j = 46
  else false

/-- Hints one call contributes in `chained_expr_type_hints`. -/
def chainedHintForCall (text : List Char) (index : WorkspaceIndex)
    (call : Call) : List InlayHint :=
  let bs := bytesOf text
  let isChain := match call.kind with
    | .method => true
    | .function => is_chained_call bs call.close_paren
  if isChain = false then []
  else
    let tyOpt := match call.kind with
      | .method => (index.unique_method call.name).bind (·.return_type)
      | .function => (index.unique_fn call.name).bind (·.return_type)
    match tyOpt with
    | none => []
    | some ty =>
      match offset_to_position text (min (call.close_paren + 1) bs.length) with
      | none => []
      | some pos => [type_hint pos ty]

/-- `chained_expr_type_hints` from `src/inlay/mod.rs`. -/
def chained_expr_type_hints (text : List Char) (index : WorkspaceIndex) :
    List InlayHint :=
  (collect_calls (bytesOf text)).flatMap (chainedHintForCall text index)

/-- `position_cmp` from `src/inlay/mod.rs`. -/
def position_cmp (a b : Position) : Ordering :=
  match compare a.line b.line with
  | .eq => compare a.character b.character
  | o => o

/-- `position_ge` from `src/inlay/mod.rs`. -/
def position_ge (a b : Position) : Bool :=
  b.line < a.line ∨ (a.line = b.line ∧ b.character ≤ a.character)

/-- `position_le` from `src/inlay/mod.rs`. -/
def position_le (a b : Position) : Bool :=
  a.line < b.line ∨ (a.line = b.line ∧ a.character ≤ b.character)

/-- `position_in_range` from `src/inlay/mod.rs`. -/
def position_in_range (pos : Position) (range : Range) : Bool :=
  position_ge pos range.start ∧ position_le pos range.stop

/-- The Boolean comparator fed to the sort (`Vec::sort_by` is a stable
sort; `List.mergeSort` with "not greater" realizes it). -/
def posLeB (a b : Position) : Bool :=
  match position_cmp a b with
  | .gt => false
  | _ => true

/-- `inlay_hints` from `src/inlay/mod.rs`: look the document up, build the
index (the workspace walk's extra on-disk sources are passed as a list),
run the four passes, filter by the requested range and sort. -/
def inlay_hints (docs : DocumentStore) (extraSources : List (List Char))
    (uri : Uri) (range : Range) : List InlayHint :=
  match docs.get uri with
  | none => []
  | some doc =>
    let index := WorkspaceIndex.buildFrom
      (docs.docs.map (fun e => e.2.text) ++ extraSources)
    let hints :=
      local_var_type_hints doc.text index ++ arg_name_hints doc.text index ++
        const_generic_hints doc.text index ++
        chained_expr_type_hints doc.text index
    (hints.filter (fun h => position_in_range h.position range)).mergeSort
      (fun a b => posLeB a.position b.position)

/-! ## Diagnostics adapter (`src/diagnostics/mod.rs`)

External collaborators are modelled at their contracts: `serde_json` is a
parameter `parse` turning one stdout line into a JSON value, and spawning
the child process is a parameter `spawn` that either fails with the error
string (`cmd.output()` returning `Err`) or yields the lines of the child's
standard output. -/

/-- `serde_json::Value`. -/
inductive Json where
  | null
  | boolV (b : Bool)
  | num (n : Int)
  | str (s : String)
  | arr (xs : List Json)
  | obj (fields : List (String × Json))

/-- `Value::get` on an object. -/
def Json.get (j : Json) (k : String) : Option Json :=
  match j with
  | .obj fields => alGet fields k
  | _ => none

/-- `Value::as_str`. -/
def Json.asStr : Json → Option String
  | .str s => some s
  | _ => none

/-- `Value::as_bool`. -/
def Json.asBool : Json → Option Bool
  | .boolV b => some b
  | _ => none

/-- `Value::as_u64`. -/
def Json.asU64 : Json → Option Nat
  | .num n => if 0 ≤ n ∧ n < 18446744073709551616 then some n.toNat else none
  | _ => none

/-- `Value::as_array`. -/
def Json.asArr : Json → Option (List Json)
  | .arr xs => some xs
  | _ => none

/-- `lsp_types::DiagnosticSeverity`. -/
inductive DiagnosticSeverity where
  | error
  | warning
  | information
  | hint
deriving DecidableEq

/-- `lsp_types::Diagnostic` as `run_check` populates it (the remaining
fields are always `None`). -/
structure Diagnostic where
  range : Range
  severity : Option DiagnosticSeverity
  source : Option String
  message : String
deriving DecidableEq

/-- `map_severity` from `src/diagnostics/mod.rs`. -/
def map_severity (level : String) : Option DiagnosticSeverity :=
  if level = "error" then some .error
  else if level = "warning" then some .warning
  else if level = "note" then some .hint
  else if level = "help" then some .information
  else some .information

/-- `uri_from_file` from `src/diagnostics/mod.rs` (POSIX `Path::join`). -/
def uri_from_file (root : String) (file_name : String) : Option (List Char) :=
  let fn := file_name.toList
  let rt := root.toList
  let full :=
    if fn.take 1 = ['/'] then fn
    else if rt.getLast? = some '/' then rt ++ fn
    else rt ++ '/' :: fn
  path_to_uri full

/-- The body of the per-line loop in `run_check`: `None` is every `continue`
(unparseable line, wrong `reason`, missing `message`, empty `spans`,
missing `file_name`, or a path `path_to_uri` rejects). -/
def processLine (parse : String → Option Json) (root : String)
    (line : String) : Option (List Char × Diagnostic) :=
  match parse line with
  | none => none
  | some value =>
    if ((value.get "reason").bind Json.asStr) ≠ some "compiler-message" then none
    else
      match value.get "message" with
      | none => none
      | some message =>
        let level := ((message.get "level").bind Json.asStr).getD "error"
        let msgText := ((message.get "message").bind Json.asStr).getD "rustc error"
        match (message.get "spans").bind Json.asArr with
        | none => none
        | some [] => none
        | some (s0 :: srest) =>
          let span := ((s0 :: srest).find? (fun sp =>
            ((sp.get "is_primary").bind Json.asBool) = some true)).getD s0
          match (span.get "file_name").bind Json.asStr with
          | none => none
          | some file_name =>
            let ls := (((span.get "line_start").bind Json.asU64).getD 1) % 4294967296
            let cs := (((span.get "column_start").bind Json.asU64).getD 1) % 4294967296
            let le := (((span.get "line_end").bind Json.asU64).getD 1) % 4294967296
            let ce := (((span.get "column_end").bind Json.asU64).getD 1) % 4294967296
            let range : Range :=
              ⟨lsp_position_from_span ls cs, lsp_position_from_span le ce⟩
            let diagnostic : Diagnostic :=
              ⟨range, map_severity level, some "cargo", msgText⟩
            (uri_from_file root file_name).map (fun uri => (uri, diagnostic))

/-- `split_command` from `src/diagnostics/mod.rs`. -/
def split_command (command : List String) :
    Except String (String × List String) :=
  match command with
  | [] => .error "checkCommand is empty"
  | p :: args => .ok (p, args)

/-- `run_check` from `src/diagnostics/mod.rs`: an empty command errors
before spawning; a spawn failure propagates through `?`; otherwise each
stdout line that survives the filters buckets one diagnostic by file
URI. -/
def run_check (parse : String → Option Json) (root : String)
    (command : List String) (spawn : Except String (List String)) :
    Except String (List (List Char × List Diagnostic)) :=
  match split_command command with
  | .error e => .error e
  | .ok _ =>
    match spawn with
    | .error e => .error e
    | .ok stdoutLines =>
      .ok (stdoutLines.foldl (fun m line =>
        match processLine parse root line with
        | some (uri, d) => alPush m uri d
        | none => m) [])

/-- `publish_diagnostics` from `src/lsp/server.rs`: one notification per
open document, with that document's bucket or an empty list. -/
def publish_diagnostics (open_urls : List (List Char))
    (m : List (List Char × List Diagnostic)) :
    List (List Char × List Diagnostic) :=
  open_urls.map (fun uri => (uri, (alGet m uri).getD []))

/-- The diagnostics part of `handle_did_save` (`src/lsp/server.rs`): the
worker publishes only when `run_check` returns `Ok`. -/
def on_save_diagnostics (parse : String → Option Json) (root : String)
    (command : List String) (spawn : Except String (List String))
    (open_urls : List (List Char)) : List (List Char × List Diagnostic) :=
  match run_check parse root command spawn with
  | .ok m => publish_diagnostics open_urls m
  | .error _ => []

/-! ## Index invariants (for the claims about `WorkspaceIndex`) -/

/-- A method entry is the given function entry with the leading `self`
stripped and `has_self` cleared; the function entry retains the `self` at
the head of its parameter list. -/
def MethodFromFn (m f : FunctionSig) : Prop :=
  f.has_self = true ∧ f.params.head? = some (kw "self") ∧
    m.params = f.params.tail ∧ m.return_type = f.return_type ∧
    m.generics = f.generics ∧ m.has_self = false

/-- The `WorkspaceIndex` invariants: every method entry has a matching
function entry under the same name, and stored generic lists are never
empty. -/
def IndexInv (idx : WorkspaceIndex) : Prop :=
  (∀ name ms, alGet idx.method_defs name = some ms →
    ∀ m ∈ ms, ∃ f ∈ (alGet idx.fn_defs name).getD [], MethodFromFn m f) ∧
  (∀ name L, alGet idx.generics name = some L → ∀ g ∈ L, g ≠ [])

/-! ## Line/column bookkeeping (for the claim about `position.rs`) -/

/-- Number of newline characters in a text. -/
def nlCount : List Char → Nat
  | [] => 0
  | c :: s => (if c = '\n' then 1 else 0) + nlCount s

/-- UTF-16 code-unit length of a text (`str::encode_utf16().count()`). -/
def utf16Len : List Char → Nat
  | [] => 0
  | c :: s => utf16LenC c + utf16Len s

/-- The segment of a text after its last newline (the whole text when it
contains none). -/
def lastSeg : List Char → List Char
  | [] => []
  | c :: s => if nlCount s = 0 then (if c = '\n' then s else c :: s) else lastSeg s

/-- Total byte length of a list of lines, one extra byte per line for the
newline that terminated it. -/
def lineSum (ls : List (List Char)) : Nat :=
  (ls.map (fun l => strByteLen l + 1)).sum

/-! # Theorems -/

/-! ## Association-list lemmas -/

theorem alGet_eq_none {κ α : Type} [DecidableEq κ] {m : List (κ × α)} {k : κ}
    (h : alGet m k = none) : m.find? (fun e => e.1 = k) = none := by
  unfold alGet at h
  exact Option.map_eq_none'.mp h

theorem find?_append_none {κ α : Type} [DecidableEq κ] {k : κ}
    {m₁ : List (κ × α)} (m₂ : List (κ × α))
    (h : m₁.find? (fun e => e.1 = k) = none) :
    (m₁ ++ m₂).find? (fun e => e.1 = k) = m₂.find? (fun e => e.1 = k) := by
  induction m₁ with
  | nil => simp
  | cons e rest ih =>
    by_cases he : e.1 = k
    · rw [List.find?_cons_of_pos _ (by simp [he])] at h
      exact absurd h (by simp)
    · rw [List.find?_cons_of_neg _ (by simp [he])] at h
      rw [List.cons_append, List.find?_cons_of_neg _ (by simp [he])]
      exact ih h

/-! ## C9: `change_full` on an unknown URI inserts the document -/

/-- C9: for every document store, URI, version and text, when no document
is stored under the URI, `change_full` inserts a fresh document with
exactly that text and version, and `get` afterwards returns it. -/
theorem C9_change_full_inserts (s : DocumentStore) (uri : Uri) (version : Int)
    (text : List Char) (h : s.get uri = none) :
    (s.change_full uri version text).get uri = some ⟨text, version⟩ := by
  unfold DocumentStore.get at h ⊢
  unfold DocumentStore.change_full
  have hfind : s.docs.find? (fun e => e.1 = uri) = none :=
    Option.map_eq_none'.mp h
  rw [hfind]
  simp only
  rw [find?_append_none _ hfind]
  simp

/-- Witness for C9 at the empty store. -/
theorem C9_witness :
    ((DocumentStore.mk []).change_full "file:///a.rs" 3 "fn f() {}".toList).get
      "file:///a.rs" = some ⟨"fn f() {}".toList, 3⟩ :=
  C9_change_full_inserts ⟨[]⟩ "file:///a.rs" 3 "fn f() {}".toList (by rfl)

/-! ## C10: totality of `offset_to_position` -/

/-- C10: for every text and byte offset, `offset_to_position` returns a
position exactly when the offset is at most the text's byte length (also
for offsets inside a multi-byte character), and `none` exactly when the
offset exceeds it. -/
theorem C10_offset_to_position_total (text : List Char) (offset : Nat) :
    ((offset_to_position text offset).isSome ↔ offset ≤ strByteLen text) ∧
      (offset_to_position text offset = none ↔ strByteLen text < offset) := by
  unfold offset_to_position
  by_cases h : strByteLen text < offset
  · simp only [if_pos h]
    constructor
    · simp
      omega
    · simp
      omega
  · simp only [if_neg h]
    constructor
    · simp
      omega
    · simp
      omega

/-! ## C3: a spawn failure publishes nothing -/

/-- C3 counterexample: with the checker spawn failing, `run_check`
propagates the error and the on-save worker publishes no notification at
all for the open document — not an empty-array `publishDiagnostics` as the
claim states. -/
theorem C3_counterexample :
    run_check (fun _ => none) "/r" ["cargo", "check"] (.error "spawn failed") =
        .error "spawn failed" ∧
      on_save_diagnostics (fun _ => none) "/r" ["cargo", "check"]
        (.error "spawn failed") ["file:///r/a.rs".toList] = [] ∧
      ([] : List (List Char × List Diagnostic)) ≠
        [("file:///r/a.rs".toList, [])] := by
  refine ⟨rfl, rfl, ?_⟩
  intro h
  simpa using congrArg List.length h

/-- C3 amended: if spawning the external checker fails, `run_check` returns
an error (the spawn error itself whenever the configured command is
non-empty) and the on-save pass publishes nothing, leaving stale markers in
place; only a successful run — e.g. one with no parseable output, which
yields the empty diagnostics map — publishes `publishDiagnostics` with
empty arrays for every open document. -/
theorem C3_spawn_failure_publishes_nothing (parse : String → Option Json)
    (root : String) (command : List String) (e : String)
    (open_urls : List (List Char)) :
    on_save_diagnostics parse root command (.error e) open_urls = [] ∧
      (command ≠ [] →
        run_check parse root command (.error e) = .error e) ∧
      (command ≠ [] →
        on_save_diagnostics parse root command (.ok []) open_urls =
          open_urls.map (fun uri => (uri, []))) := by
  refine ⟨?_, ?_, ?_⟩
  · unfold on_save_diagnostics run_check split_command
    cases command <;> simp
  · intro hc
    unfold run_check split_command
    cases command with
    | nil => exact absurd rfl hc
    | cons p args => simp
  · intro hc
    unfold on_save_diagnostics run_check split_command
    cases command with
    | nil => exact absurd rfl hc
    | cons p args =>
      simp only
      unfold publish_diagnostics
      simp [alGet]

/-- Witness for C3 (amended) at a concrete configuration. -/
theorem C3_witness :
    on_save_diagnostics (fun _ => none) "/r" ["cargo", "check"]
        (.error "spawn failed") ["file:///r/a.rs".toList] = [] ∧
      run_check (fun _ => none) "/r" ["cargo", "check"] (.error "spawn failed") =
        .error "spawn failed" ∧
      on_save_diagnostics (fun _ => none) "/r" ["cargo", "check"]
        (.ok []) ["file:///r/a.rs".toList] = [("file:///r/a.rs".toList, [])] := by
  obtain ⟨h1, h2, h3⟩ := C3_spawn_failure_publishes_nothing (fun _ => none) "/r"
    ["cargo", "check"] "spawn failed" ["file:///r/a.rs".toList]
  exact ⟨h1, h2 (by simp), by rw [h3 (by simp)]; simp⟩

/-! ## C1: ambiguous `fn_defs` and argument-name hints -/

/-- C1 counterexample: in
`fn foo(a: i32) {} struct S; impl S { fn foo(&self, b: i32) {} } fn main() \x7b s.foo(1); \x7d`
the index holds two `fn_defs` entries for `foo`, yet the argument-name pass
emits a `b:` parameter hint for the method call `s.foo(1)` — the
`fn_defs[name].len() > 1` ambiguity does not suppress hints at method call
sites, which consult `method_defs` instead. -/
theorem C1_counterexample :
    ((alGet (WorkspaceIndex.buildFrom
        ["fn foo(a: i32) {} struct S; impl S { fn foo(&self, b: i32) {} } fn main() { s.foo(1); }".toList]).fn_defs
      (kw "foo")).getD []).length = 2 ∧
      arg_name_hints
        "fn foo(a: i32) {} struct S; impl S { fn foo(&self, b: i32) {} } fn main() { s.foo(1); }".toList
        (WorkspaceIndex.buildFrom
          ["fn foo(a: i32) {} struct S; impl S { fn foo(&self, b: i32) {} } fn main() { s.foo(1); }".toList]) =
        [param_hint ⟨0, 82⟩ (kw "b")] := by
  constructor
  · decide
  · decide

/-- C1 amended: if `fn_defs[name].len() > 1`, the argument-name pass emits
no parameter hint for any *function-kind* call to `name` (method call
sites are governed by `method_defs[name]` uniqueness instead); in
particular the source
`fn foo(a: i32) {} fn foo(b: i64) {} fn main() \x7b foo(1); \x7d` yields no
argument-name hints. -/
theorem C1_ambiguous_fn_suppresses_hints :
    (∀ (text : List Char) (index : WorkspaceIndex) (call : Call),
        call ∈ collect_calls (bytesOf text) → call.kind = .function →
        1 < ((alGet index.fn_defs call.name).getD []).length →
        hintsForCall text index call = []) ∧
      arg_name_hints "fn foo(a: i32) {} fn foo(b: i64) {} fn main() { foo(1); }".toList
        (WorkspaceIndex.buildFrom
          ["fn foo(a: i32) {} fn foo(b: i64) {} fn main() { foo(1); }".toList]) = [] := by
  constructor
  · intro text index call _ hkind hlen
    unfold hintsForCall
    rw [hkind]
    unfold WorkspaceIndex.unique_fn
    cases hget : alGet index.fn_defs call.name with
    | none => simp [hget] at hlen
    | some items =>
      rw [hget] at hlen
      simp only [Option.getD_some] at hlen
      have : items.length ≠ 1 := by omega
      simp [this]
  · decide

/-- Witness for C1 (amended) at the duplicated-`foo` source: the `foo(1)`
call is collected as a function call, `fn_defs` holds two entries, and the
call contributes no hints. -/
theorem C1_witness :
    hintsForCall "fn foo(a: i32) {} fn foo(b: i64) {} fn main() { foo(1); }".toList
      (WorkspaceIndex.buildFrom
        ["fn foo(a: i32) {} fn foo(b: i64) {} fn main() { foo(1); }".toList])
      ⟨kw "foo", .function, [52], 53⟩ = [] :=
  C1_ambiguous_fn_suppresses_hints.1
    "fn foo(a: i32) {} fn foo(b: i64) {} fn main() { foo(1); }".toList
    (WorkspaceIndex.buildFrom
      ["fn foo(a: i32) {} fn foo(b: i64) {} fn main() { foo(1); }".toList])
    ⟨kw "foo", .function, [52], 53⟩ (by decide) (by decide) (by decide)

/-! ## C7: an explicit type annotation suppresses the local-variable hint -/

/-- C7: whenever the scan of a `let` binding head sees a `:` at bracket
depth zero before the `=` (the `has_type` flag of `scanLet`), the
local-variable pass step emits no hint at that `let`; in particular
`fn main() \x7b let x: i64 = 1; \x7d` yields no hint at all. -/
theorem C7_explicit_type_suppresses :
    (∀ (text : List Char) (index : WorkspaceIndex) (i j1 : Nat) (t : Token),
        (lexText text)[i]? = some t → t.isIdent (kw "let") = true →
        (if ((lexText text)[i + 1]?).any (·.isIdent (kw "mut")) then i + 1 + 1
          else i + 1) = j1 →
        (scanLet (lexText text) ((lexText text).length + 1) (j1 + 1) 0
          false).1 = true →
        letHintAt text index i = none) ∧
      local_var_type_hints "fn main() { let x: i64 = 1; }".toList
        (WorkspaceIndex.buildFrom ["fn main() { let x: i64 = 1; }".toList]) = [] := by
  constructor
  · intro text index i j1 t h1 h2 hj1 hscan
    unfold letHintAt
    simp only [h1, h2, hj1]
    split
    · rfl
    · split
      · rfl
      · split
        · rfl
        · split
          · rfl
          · simp [hscan]
  · decide

/-- Witness for C7 at `fn main() \x7b let x: i64 = 1; \x7d` (the `let` is
token index 5; the scan sees the `:` before the `=`). -/
theorem C7_witness :
    letHintAt "fn main() { let x: i64 = 1; }".toList
      (WorkspaceIndex.buildFrom ["fn main() { let x: i64 = 1; }".toList]) 5 = none :=
  C7_explicit_type_suppresses.1 "fn main() { let x: i64 = 1; }".toList
    (WorkspaceIndex.buildFrom ["fn main() { let x: i64 = 1; }".toList]) 5 6
    ⟨.ident (kw "let"), 12, 15⟩ (by decide) (by decide) (by decide) (by decide)

/-! ## C8: workspace-index invariants -/

theorem alGet_cons {κ α : Type} [DecidableEq κ] (e : κ × α) (rest : List (κ × α))
    (k : κ) : alGet (e :: rest) k = if e.1 = k then some e.2 else alGet rest k := by
  by_cases h : e.1 = k
  · unfold alGet
    rw [List.find?_cons_of_pos _ (by simp [h])]
    simp [h]
  · unfold alGet
    rw [List.find?_cons_of_neg _ (by simp [h])]
    simp [h]

theorem alGet_alPushMap {κ α : Type} [DecidableEq κ] (m : List (κ × List α))
    (k k' : κ) (v : α) :
    alGet (m.map (fun e => if e.1 = k then (e.1, e.2 ++ [v]) else e)) k' =
      if k' = k then (alGet m k').map (· ++ [v]) else alGet m k' := by
  induction m with
  | nil => by_cases h : k' = k <;> simp [alGet, h]
  | cons e rest ih =>
    by_cases hek : e.1 = k
    · subst hek
      by_cases hk : k' = e.1
      · subst hk
        simp [alGet_cons]
      · have hk2 : ¬ e.1 = k' := fun hh => hk hh.symm
        simp [alGet_cons, hk, hk2, ih]
    · by_cases hek' : e.1 = k'
      · subst hek'
        simp [alGet_cons, hek, fun hh : e.1 = k => hek hh]
      · simp [alGet_cons, hek, hek', ih]

theorem alGet_append {κ α : Type} [DecidableEq κ] (m₁ m₂ : List (κ × α)) (k : κ) :
    alGet (m₁ ++ m₂) k =
      match alGet m₁ k with
      | some v => some v
      | none => alGet m₂ k := by
  induction m₁ with
  | nil => simp [alGet]
  | cons e rest ih =>
    by_cases h : e.1 = k
    · simp [alGet_cons, h, List.cons_append]
    · simp only [List.cons_append, alGet_cons, if_neg h]
      exact ih

theorem alGet_alPush_self {κ α : Type} [DecidableEq κ] (m : List (κ × List α))
    (k : κ) (v : α) :
    alGet (alPush m k v) k = some ((alGet m k).getD [] ++ [v]) := by
  cases h : alGet m k with
  | some xs =>
    unfold alPush
    simp only [h]
    rw [alGet_alPushMap]
    simp [h]
  | none =>
    unfold alPush
    simp only [h]
    rw [alGet_append, h]
    simp [alGet_cons]

theorem alGet_alPush_ne {κ α : Type} [DecidableEq κ] (m : List (κ × List α))
    (k k' : κ) (v : α) (hne : k' ≠ k) :
    alGet (alPush m k v) k' = alGet m k' := by
  cases h : alGet m k with
  | some xs =>
    unfold alPush
    simp only [h]
    rw [alGet_alPushMap]
    simp [hne]
  | none =>
    unfold alPush
    simp only [h]
    rw [alGet_append]
    cases h2 : alGet m k' with
    | some x => simp
    | none =>
      simp only [h2, alGet_cons]
      rw [if_neg (fun hh : k = k' => hne hh.symm)]
      simp [alGet]

/-- Membership in a keyed bucket survives any `alPush`. -/
theorem mem_getD_alPush {κ α : Type} [DecidableEq κ] {m : List (κ × List α)}
    {k' : κ} {x : α} (k : κ) (v : α)
    (h : x ∈ (alGet m k').getD []) : x ∈ (alGet (alPush m k v) k').getD [] := by
  by_cases hk : k' = k
  · subst hk
    rw [alGet_alPush_self]
    simp only [Option.getD_some]
    exact List.mem_append_left _ h
  · rw [alGet_alPush_ne _ _ _ _ hk]
    exact h

/-- The signature just pushed is in its bucket. -/
theorem self_mem_alPush {κ α : Type} [DecidableEq κ] (m : List (κ × List α))
    (k : κ) (v : α) : v ∈ (alGet (alPush m k v) k).getD [] := by
  rw [alGet_alPush_self]
  simp

theorem indexInv_empty : IndexInv emptyIndex := by
  constructor
  · intro name ms h
    simp [emptyIndex, alGet] at h
  · intro name L h
    simp [emptyIndex, alGet] at h

theorem indexInv_add_fn {idx : WorkspaceIndex} (h : IndexInv idx)
    (name : List Nat) (sig : FunctionSig) : IndexInv (idx.add_fn name sig) := by
  obtain ⟨hm, hg⟩ := h
  constructor
  · intro n ms hms m hmem
    obtain ⟨f, hf, hmf⟩ := hm n ms hms m hmem
    exact ⟨f, mem_getD_alPush name sig hf, hmf⟩
  · exact hg

theorem indexInv_add_generics {idx : WorkspaceIndex} (h : IndexInv idx)
    (name : List Nat) (gs : List GenericParam) :
    IndexInv (idx.add_generics name gs) := by
  obtain ⟨hm, hg⟩ := h
  unfold WorkspaceIndex.add_generics
  by_cases hgs : gs = []
  · simp [hgs]
    exact ⟨hm, hg⟩
  · simp only [if_neg hgs]
    refine ⟨hm, ?_⟩
    intro n L hL g hgmem
    by_cases hn : n = name
    · subst hn
      rw [alGet_alPush_self] at hL
      rcases hL with hL
      injection hL with hL
      subst hL
      rcases List.mem_append.mp hgmem with h1 | h1
      · cases hold : alGet idx.generics n with
        | some L0 =>
          rw [hold] at h1
          exact hg n L0 hold g h1
        | none =>
          rw [hold] at h1
          simp at h1
      · simp at h1
        subst h1
        exact hgs
    · rw [alGet_alPush_ne _ _ _ _ hn] at hL
      exact hg n L hL g hgmem

theorem indexInv_add_method {idx : WorkspaceIndex} (h : IndexInv idx)
    (name : List Nat) (msig : FunctionSig)
    (hw : ∃ f ∈ (alGet idx.fn_defs name).getD [], MethodFromFn msig f) :
    IndexInv (idx.add_method name msig) := by
  obtain ⟨hm, hg⟩ := h
  refine ⟨?_, hg⟩
  intro n ms hms m hmem
  by_cases hn : n = name
  · subst hn
    unfold WorkspaceIndex.add_method at hms
    simp only at hms
    rw [alGet_alPush_self] at hms
    injection hms with hms
    subst hms
    rcases List.mem_append.mp hmem with h1 | h1
    · cases hold : alGet idx.method_defs n with
      | some ms0 =>
        rw [hold] at h1
        exact hm n ms0 hold m h1
      | none =>
        rw [hold] at h1
        simp at h1
    · simp at h1
      subst h1
      exact hw
  · unfold WorkspaceIndex.add_method at hms
    simp only at hms
    rw [alGet_alPush_ne _ _ _ _ hn] at hms
    exact hm n ms hms m hmem

/-- `parse_fn_def` always computes `has_self` from the head of the parsed
parameter list. -/
theorem parse_fn_def_has_self {bs : List Nat} {ts : List Token} {idx : Nat}
    {name : List Nat} {sig : FunctionSig} {nextI : Nat}
    (h : parse_fn_def bs ts idx = some (name, sig, nextI)) :
    sig.has_self = decide (sig.params.head? = some (kw "self")) := by
  unfold parse_fn_def at h
  split at h
  · exact Option.noConfusion h
  · split at h
    · exact Option.noConfusion h
    · dsimp only at h
      repeat' split at h
      all_goals try exact Option.noConfusion h
      all_goals
        rw [Option.some_inj] at h
        have h1 := congrArg (fun x => x.2.1) h
        simp only at h1
        rw [← h1]

/-- One `fn` hit preserves the invariants when the signature's `has_self`
flag reflects a literal leading `self` parameter. -/
theorem add_generics_fn_defs (idx : WorkspaceIndex) (n : List Nat)
    (g : List GenericParam) : (idx.add_generics n g).fn_defs = idx.fn_defs := by
  unfold WorkspaceIndex.add_generics
  split <;> rfl

theorem indexInv_collectFnHit {idx : WorkspaceIndex} (h : IndexInv idx)
    (name : List Nat) (sig : FunctionSig)
    (hs : sig.has_self = decide (sig.params.head? = some (kw "self"))) :
    IndexInv (collectFnHit idx name sig) := by
  unfold collectFnHit
  have h1 := indexInv_add_generics (indexInv_add_fn h name sig) name sig.generics
  by_cases hself : sig.has_self
  · simp only [hself, if_true]
    refine indexInv_add_method h1 name _ ?_
    refine ⟨sig, ?_, ?_⟩
    · rw [add_generics_fn_defs]
      exact self_mem_alPush _ _ _
    · have hhead : sig.params.head? = some (kw "self") := by
        rw [hself] at hs
        exact of_decide_eq_true hs.symm
      exact ⟨hself, hhead, rfl, rfl, rfl, rfl⟩
  · simp only [hself, if_false]
    exact h1

/-- The type-definition hit of `collect_defs` preserves the invariants. -/
theorem indexInv_typeHit {idx : WorkspaceIndex} (h : IndexInv idx)
    (name : List Nat) (gens : List GenericParam) :
    IndexInv { (idx.add_generics name gens) with
      type_names := alBump (idx.add_generics name gens).type_names name } := by
  obtain ⟨hm, hg⟩ := indexInv_add_generics h name gens
  exact ⟨hm, hg⟩

/-- The `collect_defs` loop preserves the invariants. -/
theorem indexInv_collectDefsAux (bs : List Nat) (ts : List Token) :
    ∀ (fuel i : Nat) (idx : WorkspaceIndex), IndexInv idx →
      IndexInv (collectDefsAux bs ts fuel i idx) := by
  intro fuel
  induction fuel with
  | zero => intro i idx h; exact h
  | succ fuel ih =>
    intro i idx h
    unfold collectDefsAux
    cases hti : ts[i]? with
    | none => exact h
    | some t =>
      by_cases hfn : t.isIdent (kw "fn")
      · simp only [hfn, if_true]
        cases hp : parse_fn_def bs ts i with
        | some r =>
          obtain ⟨name, sig, nextI⟩ := r
          exact ih nextI _ (indexInv_collectFnHit h name sig (parse_fn_def_has_self hp))
        | none => exact ih (i + 1) idx h
      · simp only [hfn]
        by_cases hty : (t.isIdent (kw "struct") = true ∨ t.isIdent (kw "enum") = true ∨
            t.isIdent (kw "trait") = true ∨ t.isIdent (kw "type") = true)
        · simp only [Bool.false_eq_true, if_false]
          rw [if_pos hty]
          cases hp : parse_type_def ts i with
          | some r =>
            obtain ⟨name, gens, nextI⟩ := r
            exact ih nextI _ (indexInv_typeHit h name gens)
          | none => exact ih (i + 1) idx h
        · simp only [Bool.false_eq_true, if_false]
          rw [if_neg hty]
          exact ih (i + 1) idx h

/-- `add_source` preserves the invariants. -/
theorem indexInv_add_source {idx : WorkspaceIndex} (h : IndexInv idx)
    (text : List Char) : IndexInv (idx.add_source text) :=
  indexInv_collectDefsAux _ _ _ _ idx h

/-- C8: after every source is added to the index, each `method_defs[name]`
entry is a `fn_defs[name]` entry with the leading `self` retained there,
stripped in the method entry and `has_self` cleared; and every stored
generic-parameter list is non-empty. -/
theorem C8_index_invariants (sources : List (List Char)) :
    (∀ name ms,
        alGet (WorkspaceIndex.buildFrom sources).method_defs name = some ms →
        ∀ m ∈ ms,
          ∃ f ∈ (alGet (WorkspaceIndex.buildFrom sources).fn_defs name).getD [],
            f.has_self = true ∧ f.params.head? = some (kw "self") ∧
              m.params = f.params.tail ∧ m.return_type = f.return_type ∧
              m.generics = f.generics ∧ m.has_self = false) ∧
      (∀ name L, alGet (WorkspaceIndex.buildFrom sources).generics name = some L →
        ∀ g ∈ L, g ≠ []) := by
  have main : IndexInv (WorkspaceIndex.buildFrom sources) := by
    unfold WorkspaceIndex.buildFrom
    induction sources using List.reverseRecOn with
    | nil => exact indexInv_empty
    | append_singleton rest src ih =>
      rw [List.foldl_append]
      exact indexInv_add_source ih src
  obtain ⟨hm, hg⟩ := main
  refine ⟨?_, hg⟩
  intro name ms hms m hmem
  obtain ⟨f, hf, hmf⟩ := hm name ms hms m hmem
  exact ⟨f, hf, hmf⟩

/-- Witness for C8 at `impl Foo \x7b fn m(&self, x: i32) -> i64 \x7b 0 \x7d \x7d`. -/
theorem C8_witness :
    ∃ f ∈ (alGet (WorkspaceIndex.buildFrom
        ["impl Foo { fn m(&self, x: i32) -> i64 { 0 } }".toList]).fn_defs
      (kw "m")).getD [],
      f.has_self = true ∧ f.params.head? = some (kw "self") ∧
        (⟨[kw "x"], some (kw "i64"), [], false⟩ : FunctionSig).params = f.params.tail ∧
        (⟨[kw "x"], some (kw "i64"), [], false⟩ : FunctionSig).return_type = f.return_type ∧
        (⟨[kw "x"], some (kw "i64"), [], false⟩ : FunctionSig).generics = f.generics ∧
        (⟨[kw "x"], some (kw "i64"), [], false⟩ : FunctionSig).has_self = false :=
  (C8_index_invariants ["impl Foo { fn m(&self, x: i32) -> i64 { 0 } }".toList]).1
    (kw "m") [⟨[kw "x"], some (kw "i64"), [], false⟩] (by decide)
    ⟨[kw "x"], some (kw "i64"), [], false⟩ (by decide)

/-! ## C4: the inlay-hints entry point filters and sorts -/

theorem posLeB_iff (a b : Position) :
    posLeB a b = true ↔
      (a.line < b.line ∨ (a.line = b.line ∧ a.character ≤ b.character)) := by
  unfold posLeB position_cmp
  rcases Nat.lt_trichotomy a.line b.line with h | h | h
  · rw [Nat.compare_eq_lt.mpr h]
    simp
    omega
  · rw [Nat.compare_eq_eq.mpr h]
    rcases Nat.lt_trichotomy a.character b.character with h2 | h2 | h2
    · rw [Nat.compare_eq_lt.mpr h2]
      simp
      omega
    · rw [Nat.compare_eq_eq.mpr h2]
      simp
      omega
    · rw [Nat.compare_eq_gt.mpr h2]
      simp
      omega
  · rw [Nat.compare_eq_gt.mpr h]
    simp
    omega

theorem posLeB_trans (a b c : Position) (h1 : posLeB a b = true)
    (h2 : posLeB b c = true) : posLeB a c = true := by
  rw [posLeB_iff] at h1 h2 ⊢
  omega

theorem posLeB_total (a b : Position) : (posLeB a b || posLeB b a) = true := by
  by_cases h : posLeB a b = true
  · simp [h]
  · have h3 : ¬ (a.line < b.line ∨ (a.line = b.line ∧ a.character ≤ b.character)) :=
      fun hc => h ((posLeB_iff a b).mpr hc)
    have h2 : posLeB b a = true := by
      rw [posLeB_iff]
      omega
    simp [h2]

/-- C4: every hint returned by the inlay-hints entry point lies inside the
requested range (inclusive bounds, line compared before character), and the
returned list is sorted in non-decreasing `(line, character)` order. -/
theorem C4_inlay_hints_filtered_sorted (docs : DocumentStore)
    (extraSources : List (List Char)) (uri : Uri) (range : Range) :
    (∀ h ∈ inlay_hints docs extraSources uri range,
        position_ge h.position range.start = true ∧
          position_le h.position range.stop = true) ∧
      List.Pairwise (fun a b => posLeB a.position b.position = true)
        (inlay_hints docs extraSources uri range) := by
  unfold inlay_hints
  cases hdoc : docs.get uri with
  | none => simp
  | some doc =>
    simp only
    constructor
    · intro h hmem
      have h1 : h ∈ List.filter (fun h => position_in_range h.position range) _ :=
        List.mem_mergeSort.mp hmem
      have h2 := List.of_mem_filter h1
      unfold position_in_range at h2
      simpa using h2
    · exact List.sorted_mergeSort
        (fun a b c => posLeB_trans a.position b.position c.position)
        (fun a b => posLeB_total a.position b.position) _

/-- Witness for C4 at a concrete store and range. -/
theorem C4_witness :
    (position_ge (Position.mk 0 17) (Position.mk 0 0) = true ∧
        position_le (Position.mk 0 17) (Position.mk 5 0) = true) ∧
      List.Pairwise (fun a b => posLeB a.position b.position = true)
        (inlay_hints ⟨[("file:///a.rs", ⟨"fn main() { let x = 1; }".toList, 1⟩)]⟩
          [] "file:///a.rs" ⟨⟨0, 0⟩, ⟨5, 0⟩⟩) := by
  have main := C4_inlay_hints_filtered_sorted
    ⟨[("file:///a.rs", ⟨"fn main() { let x = 1; }".toList, 1⟩)]⟩ []
    "file:///a.rs" ⟨⟨0, 0⟩, ⟨5, 0⟩⟩
  refine ⟨main.1 (type_hint ⟨0, 17⟩ (kw "i32")) ?_, main.2⟩
  unfold inlay_hints
  simp only [show (DocumentStore.mk
      [("file:///a.rs", ⟨"fn main() { let x = 1; }".toList, 1⟩)]).get
      "file:///a.rs" = some ⟨"fn main() { let x = 1; }".toList, 1⟩ from rfl]
  exact List.mem_mergeSort.mpr (by decide)

/-! ## C2: the lexer produces well-formed spans -/

theorem scanWhileB_ge (bs : List Nat) (p : Nat → Bool) :
    ∀ fuel i, i ≤ scanWhileB bs p fuel i := by
  intro fuel
  induction fuel with
  | zero => intro i; exact Nat.le_refl i
  | succ fuel ih =>
    intro i
    unfold scanWhileB
    split
    · exact Nat.le_trans (Nat.le_succ i) (ih (i + 1))
    · exact Nat.le_refl i

theorem scanWhileB_le (bs : List Nat) (p : Nat → Bool) :
    ∀ fuel i, i ≤ bs.length → scanWhileB bs p fuel i ≤ bs.length := by
  intro fuel
  induction fuel with
  | zero => intro i h; exact h
  | succ fuel ih =>
    intro i h
    unfold scanWhileB
    split
    · rename_i hc
      exact ih (i + 1) hc.1
    · exact h

theorem scanWhileB_hit (bs : List Nat) (p : Nat → Bool) (fuel i : Nat)
    (h1 : i < bs.length) (h2 : p (byteAt bs i) = true) :
    i + 1 ≤ scanWhileB bs p (fuel + 1) i := by
  unfold scanWhileB
  rw [if_pos ⟨h1, h2⟩]
  exact scanWhileB_ge bs p fuel (i + 1)

theorem blockCommentEnd_bounds (bs : List Nat) :
    ∀ fuel s, s ≤ bs.length →
      s ≤ blockCommentEnd bs fuel s ∧ blockCommentEnd bs fuel s ≤ bs.length := by
  intro fuel
  induction fuel with
  | zero => intro s h; exact ⟨Nat.le_refl s, h⟩
  | succ fuel ih =>
    intro s h
    unfold blockCommentEnd
    split
    · rename_i hc
      split
      · omega
      · have := ih (s + 1) (by omega)
        omega
    · exact ⟨Nat.le_refl s, h⟩

theorem skip_normal_string_bounds (bs : List Nat) :
    ∀ fuel idx, min idx bs.length ≤ skip_normal_string bs fuel idx ∧
      skip_normal_string bs fuel idx ≤ bs.length := by
  intro fuel
  induction fuel with
  | zero => intro idx; constructor <;> simp [skip_normal_string] <;> omega
  | succ fuel ih =>
    intro idx
    unfold skip_normal_string
    split
    · rename_i hc
      split
      · have := ih (idx + 2)
        omega
      · split
        · omega
        · have := ih (idx + 1)
          omega
    · omega

theorem charLitEnd_bounds (bs : List Nat) :
    ∀ fuel j, min j bs.length ≤ charLitEnd bs fuel j ∧
      charLitEnd bs fuel j ≤ bs.length := by
  intro fuel
  induction fuel with
  | zero => intro j; constructor <;> simp [charLitEnd] <;> omega
  | succ fuel ih =>
    intro j
    unfold charLitEnd
    split
    · rename_i hc
      split
      · have := ih (j + 2)
        omega
      · split
        · omega
        · have := ih (j + 1)
          omega
    · omega

theorem countHashesUpTo_pos_bound (bs : List Nat) :
    ∀ k j, 0 < countHashesUpTo bs k j →
      j + countHashesUpTo bs k j ≤ bs.length := by
  intro k
  induction k with
  | zero => intro j h; simp [countHashesUpTo] at h
  | succ k ih =>
    intro j h
    unfold countHashesUpTo at h ⊢
    split at h
    · rename_i hc
      split
      · rcases Nat.eq_zero_or_pos (countHashesUpTo bs k (j + 1)) with h0 | h0
        · rw [h0]
          omega
        · have := ih (j + 1) h0
          omega
      · omega
    · omega

theorem rawBodyEnd_bounds (bs : List Nat) (hashes : Nat) :
    ∀ fuel s, min s bs.length ≤ rawBodyEnd bs hashes fuel s ∧
      rawBodyEnd bs hashes fuel s ≤ bs.length := by
  intro fuel
  induction fuel with
  | zero => intro s; constructor <;> simp [rawBodyEnd] <;> omega
  | succ fuel ih =>
    intro s
    unfold rawBodyEnd
    split
    · rename_i hc
      split
      · rename_i hq
        rcases Nat.eq_zero_or_pos hashes with h0 | h0
        · omega
        · have hcount : 0 < countHashesUpTo bs hashes (s + 1) := by
            rw [hq.2]
            exact h0
          have := countHashesUpTo_pos_bound bs hashes (s + 1) hcount
          rw [hq.2] at this
          omega
      · have := ih (s + 1)
        omega
    · omega

theorem skip_raw_string_bounds {bs : List Nat} {idx r : Nat}
    (hidx : idx ≤ bs.length) (h : skip_raw_string bs idx = some r) :
    idx < r ∧ r ≤ bs.length := by
  unfold skip_raw_string at h
  dsimp only at h
  split at h
  · rename_i hc
    rw [Option.some_inj] at h
    have hEndGe := scanWhileB_ge bs (fun b => b = 35) (bs.length + 2) idx
    have hb := rawBodyEnd_bounds bs
      (scanWhileB bs (fun b => b = 35) (bs.length + 2) idx - idx) (bs.length + 2)
      (scanWhileB bs (fun b => b = 35) (bs.length + 2) idx + 1)
    omega
  · exact Option.noConfusion h

theorem skip_string_literal_bounds {bs : List Nat} {idx r : Nat}
    (h : skip_string_literal bs idx = some r) : idx < r ∧ r ≤ bs.length := by
  unfold skip_string_literal at h
  split at h
  · exact Option.noConfusion h
  · rename_i hlen
    have hidx : idx < bs.length := by omega
    split at h
    · rw [Option.some_inj] at h
      have := skip_normal_string_bounds bs (bs.length + 2) (idx + 1)
      omega
    · split at h
      · split at h
        · rename_i hb
          rw [Option.some_inj] at h
          have := skip_normal_string_bounds bs (bs.length + 2) (idx + 2)
          omega
        · split at h
          · rename_i hb
            split at h
            · rename_i next hsome
              rw [Option.some_inj] at h
              have := @skip_raw_string_bounds bs (idx + 2) next
                (by omega) hsome
              omega
            · exact Option.noConfusion h
          · exact Option.noConfusion h
      · split at h
        · have := @skip_raw_string_bounds bs (idx + 1) r (by omega) h
          omega
        · exact Option.noConfusion h

theorem is_ident_start_continue {b : Nat} (h : is_ident_start b = true) :
    is_ident_continue b = true := by
  unfold is_ident_start at h
  unfold is_ident_continue
  simp only [decide_eq_true_eq] at h ⊢
  omega

theorem isDigitB_numContinue {b : Nat} (h : isDigitB b = true) :
    numContinue b = true := by
  unfold isDigitB at h
  unfold numContinue
  simp only [decide_eq_true_eq] at h ⊢
  omega

theorem lex_lifetime_or_char_bounds {bs : List Nat} {idx : Nat}
    (hidx : idx < bs.length) :
    idx < (lex_lifetime_or_char bs idx).2 ∧
      (lex_lifetime_or_char bs idx).2 ≤ bs.length ∧
      (∀ t, (lex_lifetime_or_char bs idx).1 = some t →
        t.start = idx ∧ t.stop = (lex_lifetime_or_char bs idx).2 ∧
          idx < t.stop) := by
  unfold lex_lifetime_or_char
  by_cases hc : bs.length ≤ idx + 1
  · rw [if_pos hc]
    exact ⟨by omega, by omega, fun t ht => Option.noConfusion ht⟩
  · rw [if_neg hc]
    by_cases hstart : is_ident_start (byteAt bs (idx + 1)) = true
    · rw [if_pos hstart]
      have hj1 : idx + 1 ≤ scanWhileB bs is_ident_continue (bs.length + 2) (idx + 1) :=
        scanWhileB_ge bs is_ident_continue (bs.length + 2) (idx + 1)
      have hj2 : scanWhileB bs is_ident_continue (bs.length + 2) (idx + 1) ≤ bs.length :=
        scanWhileB_le bs is_ident_continue (bs.length + 2) (idx + 1) (by omega)
      by_cases hq : scanWhileB bs is_ident_continue (bs.length + 2) (idx + 1) < bs.length ∧
          byteAt bs (scanWhileB bs is_ident_continue (bs.length + 2) (idx + 1)) = 39
      · rw [if_pos hq]
        exact ⟨by simp; omega, by simp; omega, fun t ht => Option.noConfusion ht⟩
      · rw [if_neg hq]
        refine ⟨by simp; omega, by simp; omega, ?_⟩
        intro t ht
        simp only [Option.some_inj] at ht
        subst ht
        exact ⟨rfl, rfl, by simp; omega⟩
    · rw [if_neg hstart]
      have := charLitEnd_bounds bs (bs.length + 2) (idx + 1)
      exact ⟨by simp; omega, by simp; omega, fun t ht => Option.noConfusion ht⟩

theorem Spaced_mono (len : Nat) : ∀ {i j : Nat} {ts : List Token}, j ≤ i →
    Spaced len i ts → Spaced len j ts := by
  intro i j ts hji h
  cases ts with
  | nil => exact trivial
  | cons t rest =>
    obtain ⟨h1, h2, h3, h4⟩ := h
    exact ⟨by omega, h2, h3, h4⟩

theorem lexAux_spaced (bs : List Nat) :
    ∀ fuel i, i ≤ bs.length → Spaced bs.length i (lexAux bs fuel i) := by
  intro fuel
  induction fuel with
  | zero => intro i _; exact trivial
  | succ fuel ih =>
    intro i hi
    unfold lexAux
    by_cases hlt : i < bs.length
    · rw [if_pos hlt]
      dsimp only
      by_cases c1 : isWsB (byteAt bs i) = true
      · rw [if_pos c1]
        exact Spaced_mono bs.length (by omega) (ih (i + 1) (by omega))
      · rw [if_neg c1]
        by_cases c2 : byteAt bs i = 47 ∧ i + 1 < bs.length ∧ byteAt bs (i + 1) = 47
        · rw [if_pos c2]
          have hge := scanWhileB_ge bs (fun x => x ≠ 10) (bs.length + 2) (i + 2)
          have hle := scanWhileB_le bs (fun x => x ≠ 10) (bs.length + 2) (i + 2) (by omega)
          exact Spaced_mono bs.length (by omega) (ih _ hle)
        · rw [if_neg c2]
          by_cases c3 : byteAt bs i = 47 ∧ i + 1 < bs.length ∧ byteAt bs (i + 1) = 42
          · rw [if_pos c3]
            have hb := blockCommentEnd_bounds bs (bs.length + 2) (i + 2) (by omega)
            exact Spaced_mono bs.length (by omega) (ih _ hb.2)
          · rw [if_neg c3]
            cases hsk : skip_string_literal bs i with
            | some next =>
              have hb := skip_string_literal_bounds hsk
              exact Spaced_mono bs.length (by omega) (ih next hb.2)
            | none =>
              by_cases c4 : byteAt bs i = 39
              · rw [if_pos c4]
                have hb := @lex_lifetime_or_char_bounds bs i hlt
                cases hlc : lex_lifetime_or_char bs i with
                | mk tk next =>
                  rw [hlc] at hb
                  try dsimp only at hb
                  cases tk with
                  | some t =>
                    have ht := hb.2.2 t rfl
                    try dsimp only at ht
                    obtain ⟨hts, htn, hlt2⟩ := ht
                    rw [htn] at hlt2
                    refine ⟨by omega, ?_, ?_, ?_⟩
                    · rw [hts, htn]
                      exact hlt2
                    · rw [htn]
                      exact hb.2.1
                    · rw [htn]
                      exact ih next hb.2.1
                  | none =>
                    exact Spaced_mono bs.length (by omega) (ih next hb.2.1)
              · rw [if_neg c4]
                by_cases c5 : is_ident_start (byteAt bs i) = true
                · rw [if_pos c5]
                  have hj1 := scanWhileB_ge bs is_ident_continue (bs.length + 2) (i + 1)
                  have hj2 := scanWhileB_le bs is_ident_continue (bs.length + 2) (i + 1) (by omega)
                  exact ⟨Nat.le_refl i,
                    show i < scanWhileB bs is_ident_continue (bs.length + 2) (i + 1) from by omega,
                    hj2, ih _ hj2⟩
                · rw [if_neg c5]
                  by_cases c6 : isDigitB (byteAt bs i) = true
                  · rw [if_pos c6]
                    have hj1 := scanWhileB_ge bs numContinue (bs.length + 2) (i + 1)
                    have hj2 := scanWhileB_le bs numContinue (bs.length + 2) (i + 1) (by omega)
                    exact ⟨Nat.le_refl i,
                      show i < scanWhileB bs numContinue (bs.length + 2) (i + 1) from by omega,
                      hj2, ih _ hj2⟩
                  · rw [if_neg c6]
                    by_cases c7 : byteAt bs i = 58 ∧ i + 1 < bs.length ∧ byteAt bs (i + 1) = 58
                    · rw [if_pos c7]
                      exact ⟨Nat.le_refl i, show i < i + 2 from by omega,
                        show i + 2 ≤ bs.length from by omega, ih (i + 2) (by omega)⟩
                    · rw [if_neg c7]
                      by_cases c8 : byteAt bs i = 45 ∧ i + 1 < bs.length ∧ byteAt bs (i + 1) = 62
                      · rw [if_pos c8]
                        exact ⟨Nat.le_refl i, show i < i + 2 from by omega,
                          show i + 2 ≤ bs.length from by omega, ih (i + 2) (by omega)⟩
                      · rw [if_neg c8]
                        exact ⟨Nat.le_refl i, show i < i + 1 from by omega,
                          show i + 1 ≤ bs.length from by omega, ih (i + 1) (by omega)⟩
    · rw [if_neg hlt]
      exact trivial


theorem Spaced_all (len : Nat) :
    ∀ (ts : List Token) (i : Nat), Spaced len i ts →
      ∀ t ∈ ts, t.start < t.stop ∧ t.stop ≤ len := by
  intro ts
  induction ts with
  | nil => intro i _ t ht; exact absurd ht (List.not_mem_nil t)
  | cons u rest ih =>
    intro i h t ht
    obtain ⟨h1, h2, h3, h4⟩ := h
    rcases List.mem_cons.mp ht with rfl | hmem
    · exact ⟨h2, h3⟩
    · exact ih u.stop h4 t hmem

theorem Spaced_chain (len : Nat) :
    ∀ (ts : List Token) (i : Nat), Spaced len i ts →
      List.Chain' (fun a b => a.stop ≤ b.start) ts := by
  intro ts
  induction ts with
  | nil => intro i _; exact List.chain'_nil
  | cons u rest ih =>
    intro i h
    obtain ⟨h1, h2, h3, h4⟩ := h
    cases rest with
    | nil => exact List.chain'_singleton u
    | cons v rest2 =>
      obtain ⟨g1, g2, g3, g4⟩ := h4
      exact List.chain'_cons.mpr ⟨g1, ih u.stop ⟨g1, g2, g3, g4⟩⟩

theorem extractB_split (bs : List Nat) {a b c : Nat} (h1 : a ≤ b) (h2 : b ≤ c) :
    extractB bs a c = extractB bs a b ++ extractB bs b c := by
  unfold extractB
  rw [show c - a = (b - a) + (c - b) by omega, List.take_add, List.drop_drop,
    show a + (b - a) = b by omega]

theorem extractB_to_end (bs : List Nat) (cur : Nat) :
    extractB bs cur bs.length = bs.drop cur := by
  unfold extractB
  exact List.take_of_length_le (by simp [List.length_drop])

theorem reassemble_spec (bs : List Nat) :
    ∀ (ts : List Token) (cur : Nat), cur ≤ bs.length →
      Spaced bs.length cur ts → reassemble bs cur ts = bs.drop cur := by
  intro ts
  induction ts with
  | nil =>
    intro cur _ _
    exact extractB_to_end bs cur
  | cons t rest ih =>
    intro cur hcur h
    obtain ⟨h1, h2, h3, h4⟩ := h
    unfold reassemble
    rw [ih t.stop h3 h4]
    rw [← extractB_to_end bs t.stop]
    rw [← extractB_split bs (by omega) (by omega)]
    rw [← extractB_split bs (by omega) h3]
    exact extractB_to_end bs cur

/-- C2: for every byte sequence, `lex` produces tokens whose `[start, stop)`
ranges are non-empty, lie inside the input, are pairwise non-overlapping in
strictly increasing order, and concatenating the token spans together with
the discarded gaps between them reproduces the input bytes. -/
theorem C2_lex_spans (bs : List Nat) :
    (∀ t ∈ lex bs, t.start < t.stop ∧ t.stop ≤ bs.length) ∧
      List.Chain' (fun a b => a.stop ≤ b.start) (lex bs) ∧
      reassemble bs 0 (lex bs) = bs := by
  have hs : Spaced bs.length 0 (lex bs) :=
    lexAux_spaced bs (bs.length + 1) 0 (Nat.zero_le _)
  refine ⟨Spaced_all bs.length (lex bs) 0 hs, Spaced_chain bs.length (lex bs) 0 hs, ?_⟩
  rw [reassemble_spec bs (lex bs) 0 (Nat.zero_le _) hs]
  exact List.drop_zero bs

/-- Witness for C2 at a concrete input (the first token of `fn f()`). -/
theorem C2_witness :
    (Token.mk (.ident (kw "fn")) 0 2).start < (Token.mk (.ident (kw "fn")) 0 2).stop ∧
      (Token.mk (.ident (kw "fn")) 0 2).stop ≤ (kw "fn f()").length :=
  (C2_lex_spans (kw "fn f()")).1 ⟨.ident (kw "fn"), 0, 2⟩ (by decide)

/-! ## C5: path / URI round trip -/

theorem toNat_ofNat_ascii {b : Nat} (h : b < 128) : (Char.ofNat b).toNat = b := by
  unfold Char.ofNat
  rw [dif_pos (by constructor; omega)]
  unfold Char.ofNatAux Char.toNat
  simp [UInt32.toNat, UInt32.ofNat', BitVec.toNat_ofNatLt]

theorem utf8Bytes_ascii {c : Char} (h : c.toNat < 128) : utf8Bytes c = [c.toNat] := by
  unfold utf8Bytes
  rw [if_pos h]

theorem bytesOf_ascii : ∀ (s : List Char), (∀ c ∈ s, c.toNat < 128) →
    bytesOf s = s.map Char.toNat := by
  intro s
  induction s with
  | nil => intro _; rfl
  | cons c rest ih =>
    intro h
    unfold bytesOf at ih ⊢
    rw [List.flatMap_cons, utf8Bytes_ascii (h c (by simp)),
      ih (fun d hd => h d (by simp [hd]))]
    rfl

theorem utf8DecodeAux_ascii : ∀ (fuel : Nat) (s : List Char), s.length < fuel →
    (∀ c ∈ s, c.toNat < 128) → utf8DecodeAux fuel (s.map Char.toNat) = some s := by
  intro fuel
  induction fuel with
  | zero => intro s h _; omega
  | succ fuel ih =>
    intro s hlen h
    cases s with
    | nil => rfl
    | cons c rest =>
      rw [List.map_cons]
      unfold utf8DecodeAux
      rw [if_pos (h c (by simp))]
      rw [ih rest (by simp at hlen ⊢; omega) (fun d hd => h d (by simp [hd]))]
      show some (Char.ofNat c.toNat :: rest) = some (c :: rest)
      rw [Char.ofNat_toNat]

theorem utf8Decode_ascii (s : List Char) (h : ∀ c ∈ s, c.toNat < 128) :
    utf8Decode (s.map Char.toNat) = some s := by
  unfold utf8Decode
  exact utf8DecodeAux_ascii _ s (by simp) h

theorem is_unreserved_lt128 {b : Nat} (h : is_unreserved b = true) : b < 128 := by
  unfold is_unreserved at h
  simp only [decide_eq_true_eq] at h
  omega

theorem is_unreserved_ne37 {b : Nat} (h : is_unreserved b = true ∨ b = 47) : b ≠ 37 := by
  unfold is_unreserved at h
  rcases h with h | h
  · simp only [decide_eq_true_eq] at h
    omega
  · omega

theorem from_hex_to_hex : ∀ v, v < 16 → from_hex ((to_hex v).toNat) = some v := by
  decide

theorem to_hex_lt128 : ∀ v, v < 16 → (to_hex v).toNat < 128 := by
  decide

theorem percentEncodeBytes_ascii : ∀ (bs : List Nat), (∀ b ∈ bs, b < 256) →
    ∀ c ∈ percentEncodeBytes bs, c.toNat < 128 := by
  intro bs
  induction bs with
  | nil => intro _ c hc; simp [percentEncodeBytes] at hc
  | cons b rest ih =>
    intro h c hc
    unfold percentEncodeBytes at hc
    split at hc
    · rename_i hu
      rcases List.mem_cons.mp hc with rfl | hc2
      · rcases hu with hu | hu
        · rw [toNat_ofNat_ascii (is_unreserved_lt128 hu)]
          exact is_unreserved_lt128 hu
        · rw [hu, toNat_ofNat_ascii (by omega)]
          omega
      · exact ih (fun d hd => h d (by simp [hd])) c hc2
    · rcases List.mem_cons.mp hc with rfl | hc2
      · decide
      · rcases List.mem_cons.mp hc2 with rfl | hc3
        · exact to_hex_lt128 _ (by omega)
        · rcases List.mem_cons.mp hc3 with rfl | hc4
          · exact to_hex_lt128 _ (by omega)
          · exact ih (fun d hd => h d (by simp [hd])) c hc4

theorem pdec_cons_plain {b : Nat} (hne : b ≠ 37) (rest : List Nat) :
    percentDecodeBytes (b :: rest) = (percentDecodeBytes rest).map (b :: ·) := by
  conv_lhs => rw [percentDecodeBytes.eq_def]
  dsimp only
  rw [if_neg hne]

theorem pdec_cons_escape {x y vx vy : Nat} (rest : List Nat)
    (hx : from_hex x = some vx) (hy : from_hex y = some vy) :
    percentDecodeBytes (37 :: x :: y :: rest) =
      (percentDecodeBytes rest).map ((vx * 16 + vy) :: ·) := by
  conv_lhs => rw [percentDecodeBytes.eq_def]
  dsimp only
  rw [hx, hy]
  rw [if_pos rfl]

theorem pdec_of_penc : ∀ (bs : List Nat), (∀ b ∈ bs, b < 256) →
    percentDecodeBytes ((percentEncodeBytes bs).map Char.toNat) = some bs := by
  intro bs
  induction bs with
  | nil => intro _; rfl
  | cons b rest ih =>
    intro h
    have hb : b < 256 := h b (by simp)
    have hrest := ih (fun d hd => h d (by simp [hd]))
    unfold percentEncodeBytes
    split
    · rename_i hu
      have hb128 : b < 128 := by
        rcases hu with hu | hu
        · exact is_unreserved_lt128 hu
        · omega
      rw [List.map_cons, toNat_ofNat_ascii hb128]
      rw [pdec_cons_plain (is_unreserved_ne37 hu) _]
      rw [hrest]
      rfl
    · rw [List.map_cons, List.map_cons, List.map_cons]
      rw [show ('%'.toNat) = 37 from rfl]
      rw [pdec_cons_escape _ (from_hex_to_hex (b / 16 % 16) (by omega))
        (from_hex_to_hex (b % 16) (by omega))]
      rw [hrest]
      show some (((b / 16 % 16) * 16 + b % 16) :: rest) = some (b :: rest)
      have : (b / 16 % 16) * 16 + b % 16 = b := by omega
      rw [this]

/-- After percent-encoding, decoding recovers the original string (for an
ASCII input, the case the amended C5 needs). -/
theorem percent_decode_encode (s : List Char) (h : ∀ c ∈ s, c.toNat < 128) :
    percent_decode (percent_encode s) = some s := by
  unfold percent_decode percent_encode
  have henc : ∀ b ∈ bytesOf s, b < 256 := by
    rw [bytesOf_ascii s h]
    intro b hb
    obtain ⟨c, hc, rfl⟩ := List.mem_map.mp hb
    have := h c hc
    omega
  rw [bytesOf_ascii _ (percentEncodeBytes_ascii (bytesOf s) henc)]
  rw [pdec_of_penc (bytesOf s) henc]
  show utf8Decode (bytesOf s) = some s
  rw [bytesOf_ascii s h]
  exact utf8Decode_ascii s h

/-- C5 counterexample: the absolute path `/a\\b` — its backslash (0x5C) is
an ASCII graphic character — is mangled by the `replace` step of
`path_to_uri`, and the round trip returns `/a/b` instead. -/
theorem C5_counterexample :
    path_to_uri "/a\\b".toList = some "file:///a/b".toList ∧
      uri_to_path "file:///a/b".toList = some "/a/b".toList ∧
      "/a/b".toList ≠ "/a\\b".toList := by
  refine ⟨by decide, by decide, by decide⟩

/-- C5 amended: for every absolute path whose characters are ASCII graphic
characters or spaces **other than the backslash**, `path_to_uri` succeeds
and `uri_to_path` of the resulting URI yields exactly the original path
(a path containing a backslash is first rewritten to `/`, breaking the
round trip). -/
theorem C5_roundtrip (path : List Char) (habs : path.take 1 = ['/'])
    (hgraph : ∀ c ∈ path, 32 ≤ c.toNat ∧ c.toNat ≤ 126) (hbs : '\\' ∉ path) :
    ∃ u, path_to_uri path = some u ∧ uri_to_path u = some path := by
  have hascii : ∀ c ∈ path, c.toNat < 128 := fun c hc => by
    have := hgraph c hc
    omega
  obtain ⟨tail, rfl⟩ : ∃ tail, path = '/' :: tail := by
    cases path with
    | nil => exact absurd habs (by simp)
    | cons c rest =>
      refine ⟨rest, ?_⟩
      simp only [List.take_succ_cons, List.take_zero, List.cons.injEq, and_true] at habs
      rw [habs]
  have hrepl : ('/' :: tail).map (fun c => if c = '\\' then '/' else c) = '/' :: tail := by
    have hcong : ∀ c ∈ '/' :: tail,
        (fun c => if c = '\\' then '/' else c) c = id c := by
      intro c hc
      simp only [id]
      rw [if_neg]
      intro hceq
      rw [hceq] at hc
      exact hbs hc
    rw [List.map_congr_left hcong, List.map_id]
  have hencS : ∀ bs : List Nat, percentEncodeBytes (47 :: bs) = '/' :: percentEncodeBytes bs := by
    intro bs
    conv_lhs => rw [percentEncodeBytes.eq_def]
    dsimp only
    rw [if_pos (Or.inr rfl)]
  have hhead : percent_encode ('/' :: tail) =
      '/' :: percentEncodeBytes (bytesOf tail) := by
    unfold percent_encode bytesOf
    rw [List.flatMap_cons]
    rw [show utf8Bytes '/' = [47] from rfl]
    show percentEncodeBytes (47 :: tail.flatMap utf8Bytes) = _
    exact hencS _
  have htake : (percent_encode ('/' :: tail)).take 1 = ['/'] := by
    rw [hhead]
    rfl
  refine ⟨"file:///".toList ++ (percent_encode ('/' :: tail)).drop 1, ?_, ?_⟩
  · unfold path_to_uri
    rw [if_neg (by simp [habs])]
    rw [hrepl]
    dsimp only
    rw [if_neg (show ¬(List.take 1 ('/' :: tail) ≠ ['/']) by simp)]
    rw [if_pos htake]
  · have hsplit : "file:///".toList ++ (percent_encode ('/' :: tail)).drop 1 =
        "file://".toList ++ percent_encode ('/' :: tail) := by
      rw [hhead]
      rfl
    rw [hsplit]
    unfold uri_to_path
    rw [show stripPrefixL "file://".toList
        ("file://".toList ++ percent_encode ('/' :: tail)) =
          some (percent_encode ('/' :: tail)) by
      unfold stripPrefixL
      rw [if_pos (List.isPrefixOf_iff_prefix.mpr (List.prefix_append _ _))]
      simp]
    dsimp only
    rw [if_pos htake]
    dsimp only
    rw [if_pos (Or.inl rfl)]
    rw [percent_decode_encode ('/' :: tail) hascii]
    rfl

/-- Witness for C5 (amended) at `/tmp/foo bar.rs` (the round trip of the
source's own unit test). -/
theorem C5_witness :
    ∃ u, path_to_uri "/tmp/foo bar.rs".toList = some u ∧
      uri_to_path u = some "/tmp/foo bar.rs".toList :=
  C5_roundtrip "/tmp/foo bar.rs".toList (by decide) (by decide) (by decide)

/-! ## C6: offset → position → offset round trip -/

theorem nlCount_cons (c : Char) (s : List Char) :
    nlCount (c :: s) = (if c = '\n' then 1 else 0) + nlCount s := rfl

theorem utf16Len_cons (c : Char) (s : List Char) :
    utf16Len (c :: s) = utf16LenC c + utf16Len s := rfl

theorem lastSeg_cons (c : Char) (s : List Char) :
    lastSeg (c :: s) =
      if nlCount s = 0 then (if c = '\n' then s else c :: s) else lastSeg s := rfl

theorem splitNl_cons (c : Char) (cs : List Char) :
    splitNl (c :: cs) =
      if c = '\n' then [] :: splitNl cs
      else
        match splitNl cs with
        | [] => [[c]]
        | l :: ls => (c :: l) :: ls := rfl

theorem otpGo_cons (offset : Nat) (c : Char) (cs : List Char) (idx line col : Nat) :
    otpGo offset (c :: cs) idx line col =
      if offset ≤ idx then (line, col)
      else if c = '\n' then otpGo offset cs (idx + charByteLen c) (satAdd32 line 1) 0
      else otpGo offset cs (idx + charByteLen c) line (satAdd32 col (utf16LenC c)) := rfl

theorem u16Go_cons (col : Nat) (c : Char) (cs : List Char) (byteIdx units : Nat) :
    u16Go col (c :: cs) byteIdx units =
      if col ≤ units then byteIdx
      else
        let units2 := (units + utf16LenC c) % 4294967296
        if col < units2 then byteIdx
        else u16Go col cs (byteIdx + charByteLen c) units2 := rfl

theorem ptoGo_cons (pos : Position) (l : List Char) (ls : List (List Char))
    (idx lineStart : Nat) :
    ptoGo pos (l :: ls) idx lineStart =
      if idx % 4294967296 = pos.line then
        some (lineStart + utf16_col_to_byte_offset l pos.character)
      else ptoGo pos ls (idx + 1) (lineStart + strByteLen l + 1) := rfl

theorem charByteLen_pos (c : Char) : 1 ≤ charByteLen c := by
  unfold charByteLen utf8Bytes
  dsimp only
  repeat' split
  all_goals simp

theorem utf16LenC_le_charByteLen (c : Char) : utf16LenC c ≤ charByteLen c := by
  unfold utf16LenC charByteLen utf8Bytes
  dsimp only
  repeat' split
  all_goals simp only [List.length_cons, List.length_nil]
  all_goals omega

theorem satAdd32_eq (a b : Nat) (h : a + b < 4294967296) : satAdd32 a b = a + b := by
  unfold satAdd32
  omega

theorem strByteLen_cons (c : Char) (s : List Char) :
    strByteLen (c :: s) = charByteLen c + strByteLen s := by
  unfold strByteLen bytesOf charByteLen
  simp

theorem strByteLen_append (a b : List Char) :
    strByteLen (a ++ b) = strByteLen a + strByteLen b := by
  unfold strByteLen bytesOf
  simp

theorem length_le_strByteLen (s : List Char) : s.length ≤ strByteLen s := by
  induction s with
  | nil => simp [strByteLen, bytesOf]
  | cons c cs ih =>
    rw [strByteLen_cons]
    have := charByteLen_pos c
    simp only [List.length_cons]
    omega

theorem utf16Len_le_strByteLen (s : List Char) : utf16Len s ≤ strByteLen s := by
  induction s with
  | nil => simp [utf16Len, strByteLen, bytesOf]
  | cons c cs ih =>
    rw [strByteLen_cons, utf16Len_cons]
    have := utf16LenC_le_charByteLen c
    omega

theorem nlCount_le_length (s : List Char) : nlCount s ≤ s.length := by
  induction s with
  | nil => simp [nlCount]
  | cons c cs ih =>
    rw [nlCount_cons]
    simp only [List.length_cons]
    split <;> omega

theorem nlCount_append (a b : List Char) :
    nlCount (a ++ b) = nlCount a + nlCount b := by
  induction a with
  | nil => simp [nlCount]
  | cons c cs ih =>
    simp only [List.cons_append, nlCount_cons, ih]
    omega

theorem nlCount_take_le (s : List Char) (k : Nat) :
    nlCount (s.take k) ≤ nlCount s := by
  conv_rhs => rw [← List.take_append_drop k s]
  rw [nlCount_append]
  omega

theorem lastSeg_no_nl (s : List Char) (h : nlCount s = 0) : lastSeg s = s := by
  induction s with
  | nil => rfl
  | cons c cs ih =>
    rw [nlCount_cons] at h
    have hc : ¬c = '\n' := by intro hc; rw [if_pos hc] at h; omega
    rw [if_neg hc] at h
    rw [lastSeg_cons, if_pos (by omega), if_neg hc]

theorem lastSeg_cons_nl (s : List Char) : lastSeg ('\n' :: s) = lastSeg s := by
  rw [lastSeg_cons]
  by_cases h : nlCount s = 0
  · rw [if_pos h, if_pos rfl, lastSeg_no_nl s h]
  · rw [if_neg h]

theorem lastSeg_length_le (s : List Char) : (lastSeg s).length ≤ s.length := by
  induction s with
  | nil => simp [lastSeg]
  | cons c cs ih =>
    rw [lastSeg_cons]
    by_cases h : nlCount cs = 0
    · rw [if_pos h]
      by_cases hc : c = '\n'
      · rw [if_pos hc]; simp
      · rw [if_neg hc]
    · rw [if_neg h]
      simp only [List.length_cons]
      omega

theorem lastSeg_subset (s : List Char) : ∀ c ∈ lastSeg s, c ∈ s := by
  induction s with
  | nil => simp [lastSeg]
  | cons c cs ih =>
    intro d hd
    rw [lastSeg_cons] at hd
    by_cases h : nlCount cs = 0
    · rw [if_pos h] at hd
      by_cases hc : c = '\n'
      · rw [if_pos hc] at hd
        exact List.mem_cons_of_mem c hd
      · rw [if_neg hc] at hd
        exact hd
    · rw [if_neg h] at hd
      exact List.mem_cons_of_mem c (ih d hd)

theorem lastSeg_append_nl (l0 s : List Char) :
    lastSeg (l0 ++ '\n' :: s) = lastSeg s := by
  induction l0 with
  | nil => exact lastSeg_cons_nl s
  | cons c l0 ih =>
    simp only [List.cons_append]
    rw [lastSeg_cons]
    rw [if_neg (by rw [nlCount_append, nlCount_cons, if_pos rfl]; omega)]
    exact ih

theorem utf16Len_bmp (l : List Char) (h : ∀ c ∈ l, c.toNat < 65536) :
    utf16Len l = l.length := by
  induction l with
  | nil => rfl
  | cons c cs ih =>
    rw [utf16Len_cons]
    have hc : utf16LenC c = 1 := by
      unfold utf16LenC
      rw [if_pos (h c (List.mem_cons_self c cs))]
    rw [hc, ih (fun d hd => h d (List.mem_cons_of_mem c hd))]
    simp [Nat.add_comm]

theorem otpGo_stop (offset : Nat) (s : List Char) (idx line col : Nat)
    (h : offset ≤ idx) : otpGo offset s idx line col = (line, col) := by
  cases s with
  | nil => rfl
  | cons c cs => rw [otpGo_cons, if_pos h]

theorem otpGo_spec (pre : List Char) : ∀ (rest : List Char) (idx line col : Nat),
    line + nlCount pre < 4294967296 → col + utf16Len pre < 4294967296 →
    otpGo (idx + strByteLen pre) (pre ++ rest) idx line col =
      (line + nlCount pre,
        (if nlCount pre = 0 then col else 0) + utf16Len (lastSeg pre)) := by
  induction pre with
  | nil =>
    intro rest idx line col _ _
    simp only [List.nil_append]
    rw [otpGo_stop _ _ _ _ _ (by simp [strByteLen, bytesOf])]
    simp [nlCount, utf16Len, lastSeg]
  | cons c pre ih =>
    intro rest idx line col hb1 hb2
    have hc1 := charByteLen_pos c
    simp only [List.cons_append]
    rw [otpGo_cons, strByteLen_cons]
    rw [if_neg (by omega)]
    by_cases hc : c = '\n'
    · subst hc
      rw [if_pos rfl]
      rw [nlCount_cons, if_pos rfl] at hb1
      rw [utf16Len_cons] at hb2
      rw [satAdd32_eq line 1 (by omega)]
      rw [show idx + (charByteLen '\n' + strByteLen pre)
            = (idx + charByteLen '\n') + strByteLen pre from by omega]
      rw [ih rest (idx + charByteLen '\n') (line + 1) 0 (by omega) (by omega)]
      rw [nlCount_cons, if_pos rfl]
      rw [lastSeg_cons_nl]
      rw [show ((if nlCount pre = 0 then (0:Nat) else 0)) = 0 from by split <;> rfl]
      rw [if_neg (by omega)]
      simp only [Prod.mk.injEq]
      constructor <;> first | trivial | omega
    · rw [if_neg hc]
      rw [nlCount_cons, if_neg hc] at hb1
      rw [utf16Len_cons] at hb2
      rw [satAdd32_eq col (utf16LenC c) (by omega)]
      rw [show idx + (charByteLen c + strByteLen pre)
            = (idx + charByteLen c) + strByteLen pre from by omega]
      rw [ih rest (idx + charByteLen c) line (col + utf16LenC c) (by omega) (by omega)]
      rw [nlCount_cons, if_neg hc]
      by_cases hnl : nlCount pre = 0
      · rw [if_pos hnl, if_pos (show 0 + nlCount pre = 0 from by omega)]
        rw [lastSeg_cons, if_pos hnl, if_neg hc]
        rw [lastSeg_no_nl pre hnl, utf16Len_cons]
        simp only [Prod.mk.injEq]
        constructor <;> first | trivial | omega
      · rw [if_neg hnl, if_neg (show ¬(0 + nlCount pre = 0) from by omega)]
        rw [lastSeg_cons, if_neg hnl]
        simp only [Prod.mk.injEq]
        constructor <;> first | trivial | omega

theorem otp_boundary (text : List Char) (k : Nat) (hk : k ≤ text.length)
    (hlen : strByteLen text < 4294967296) :
    offset_to_position text (strByteLen (text.take k)) =
      some ⟨nlCount (text.take k), utf16Len (lastSeg (text.take k))⟩ := by
  have hsplit : text.take k ++ text.drop k = text := List.take_append_drop k text
  have hble : strByteLen (text.take k) ≤ strByteLen text := by
    conv_rhs => rw [← hsplit]
    rw [strByteLen_append]
    omega
  have hnl : nlCount (text.take k) ≤ strByteLen text :=
    le_trans (nlCount_le_length _)
      (le_trans (by rw [List.length_take]; omega) (length_le_strByteLen text))
  have hu16 : utf16Len (text.take k) ≤ strByteLen text :=
    le_trans (utf16Len_le_strByteLen _) hble
  unfold offset_to_position
  rw [if_neg (by omega)]
  have hgo := otpGo_spec (text.take k) (text.drop k) 0 0 0 (by omega) (by omega)
  rw [Nat.zero_add, hsplit] at hgo
  dsimp only
  rw [hgo]
  rw [show ((if nlCount (text.take k) = 0 then (0:Nat) else 0)) = 0 from by
    split <;> rfl]
  simp

theorem ptoGo_spec (ls : List (List Char)) : ∀ (L idx lineStart col : Nat),
    L < ls.length → idx + L < 4294967296 →
    ptoGo ⟨idx + L, col⟩ ls idx lineStart =
      some (lineStart + lineSum (ls.take L) +
        utf16_col_to_byte_offset (ls.getD L []) col) := by
  induction ls with
  | nil => intro L idx lineStart col hL _; simp at hL
  | cons l ls ih =>
    intro L idx lineStart col hL hb
    cases L with
    | zero =>
      rw [ptoGo_cons]
      rw [if_pos (by dsimp only; omega)]
      simp [lineSum]
    | succ L =>
      rw [ptoGo_cons]
      rw [if_neg (by dsimp only; omega)]
      have hgo := ih L (idx + 1) (lineStart + strByteLen l + 1) col
        (by simp only [List.length_cons] at hL; omega) (by omega)
      rw [show idx + (L + 1) = (idx + 1) + L from by omega]
      rw [hgo]
      simp only [List.take_succ_cons, List.getD_cons_succ, Option.some.injEq]
      unfold lineSum
      simp only [List.map_cons, List.sum_cons]
      omega

theorem u16Go_bmp (l : List Char) : ∀ (m byteIdx units : Nat),
    m ≤ l.length → (∀ c ∈ l.take m, c.toNat < 65536) → units + m < 4294967296 →
    u16Go (units + m) l byteIdx units = byteIdx + strByteLen (l.take m) := by
  induction l with
  | nil =>
    intro m byteIdx units hm _ _
    have hm0 : m = 0 := by simpa using hm
    subst hm0
    simp [u16Go, strByteLen, bytesOf]
  | cons c cs ih =>
    intro m byteIdx units hm hbmp hb
    cases m with
    | zero =>
      rw [u16Go_cons, if_pos (by omega)]
      simp [strByteLen, bytesOf]
    | succ m =>
      rw [u16Go_cons, if_neg (by omega)]
      dsimp only
      have hc : utf16LenC c = 1 := by
        unfold utf16LenC
        rw [if_pos (hbmp c (by rw [List.take_succ_cons]; exact List.mem_cons_self c _))]
      rw [hc]
      rw [show (units + 1) % 4294967296 = units + 1 from by omega]
      rw [if_neg (by omega)]
      rw [show units + (m + 1) = (units + 1) + m from by omega]
      rw [ih m (byteIdx + charByteLen c) (units + 1)
        (by simp only [List.length_cons] at hm; omega)
        (fun d hd => hbmp d (by rw [List.take_succ_cons]; exact List.mem_cons_of_mem c hd))
        (by omega)]
      rw [List.take_succ_cons, strByteLen_cons]
      omega

theorem first_nl_split (text : List Char) :
    nlCount text = 0 ∨
      ∃ l0 rest, text = l0 ++ '\n' :: rest ∧ nlCount l0 = 0 := by
  induction text with
  | nil => left; rfl
  | cons c s ih =>
    by_cases hc : c = '\n'
    · subst hc
      right
      exact ⟨[], s, rfl, rfl⟩
    · rcases ih with h0 | ⟨l0, rest, heq, h0⟩
      · left
        rw [nlCount_cons, if_neg hc]
        omega
      · right
        refine ⟨c :: l0, rest, by rw [heq, List.cons_append], ?_⟩
        rw [nlCount_cons, if_neg hc]
        omega

theorem splitNl_no_nl (s : List Char) (h : nlCount s = 0) : splitNl s = [s] := by
  induction s with
  | nil => rfl
  | cons c cs ih =>
    rw [nlCount_cons] at h
    have hc : ¬c = '\n' := by intro hc; rw [if_pos hc] at h; omega
    rw [if_neg hc] at h
    rw [splitNl_cons, if_neg hc, ih (by omega)]

theorem splitNl_append (l0 s : List Char) (h : nlCount l0 = 0) :
    splitNl (l0 ++ '\n' :: s) = l0 :: splitNl s := by
  induction l0 with
  | nil =>
    simp only [List.nil_append]
    rw [splitNl_cons, if_pos rfl]
  | cons c l0 ih =>
    rw [nlCount_cons] at h
    have hc : ¬c = '\n' := by intro hc; rw [if_pos hc] at h; omega
    rw [if_neg hc] at h
    simp only [List.cons_append]
    rw [splitNl_cons, if_neg hc, ih (by omega)]

theorem splitNl_decompose (n : Nat) : ∀ (text : List Char), text.length ≤ n →
    ∀ k, k ≤ text.length →
    nlCount (text.take k) < (splitNl text).length ∧
    ∃ m, m ≤ ((splitNl text).getD (nlCount (text.take k)) []).length ∧
      lastSeg (text.take k) = ((splitNl text).getD (nlCount (text.take k)) []).take m ∧
      strByteLen (text.take k) =
        lineSum ((splitNl text).take (nlCount (text.take k))) +
          strByteLen (lastSeg (text.take k)) := by
  induction n with
  | zero =>
    intro text hn k hk
    have htext : text = [] := List.eq_nil_of_length_eq_zero (by omega)
    subst htext
    have hk0 : k = 0 := by simpa using hk
    subst hk0
    refine ⟨by simp [splitNl, nlCount], 0, by simp [splitNl, nlCount],
      by simp [splitNl, lastSeg, nlCount], ?_⟩
    simp [splitNl, lineSum, lastSeg, nlCount, strByteLen, bytesOf]
  | succ n ih =>
    intro text hn k hk
    rcases first_nl_split text with h0 | ⟨l0, rest, heq, h0⟩
    · have hL : nlCount (text.take k) = 0 := by
        have := nlCount_take_le text k; omega
      rw [splitNl_no_nl text h0, hL]
      have hseg : lastSeg (text.take k) = text.take k :=
        lastSeg_no_nl _ (by omega)
      refine ⟨by simp, k, ?_, ?_, ?_⟩
      · simpa using hk
      · rw [hseg]; rfl
      · rw [hseg]
        simp [lineSum]
    · subst heq
      rw [splitNl_append l0 rest h0]
      by_cases hkl : k ≤ l0.length
      · have hpre : (l0 ++ '\n' :: rest).take k = l0.take k :=
          List.take_append_of_le_length hkl
        have hL : nlCount ((l0 ++ '\n' :: rest).take k) = 0 := by
          rw [hpre]
          have := nlCount_take_le l0 k
          omega
        rw [hL]
        have hseg : lastSeg ((l0 ++ '\n' :: rest).take k)
            = (l0 ++ '\n' :: rest).take k :=
          lastSeg_no_nl _ (by omega)
        refine ⟨by simp, k, ?_, ?_, ?_⟩
        · simpa using hkl
        · rw [hseg, hpre]; rfl
        · rw [hseg]
          simp [lineSum]
      · have hk1 : l0.length < k := by omega
        have hlen2 : (l0 ++ '\n' :: rest).length = l0.length + 1 + rest.length := by
          simp only [List.length_append, List.length_cons]
          omega
        have hk2 : k - l0.length - 1 ≤ rest.length := by omega
        have hpre : (l0 ++ '\n' :: rest).take k
            = l0 ++ '\n' :: rest.take (k - l0.length - 1) := by
          rw [List.take_append_eq_append_take]
          rw [List.take_of_length_le (by omega)]
          congr 1
          obtain ⟨j, hj⟩ : ∃ j, k - l0.length = j + 1 := ⟨k - l0.length - 1, by omega⟩
          rw [hj, List.take_succ_cons]
          simp
        have hrest : rest.length ≤ n := by omega
        obtain ⟨hL, m, hm, hseg, hsum⟩ := ih rest hrest (k - l0.length - 1) hk2
        have hnl : nlCount ((l0 ++ '\n' :: rest).take k)
            = nlCount (rest.take (k - l0.length - 1)) + 1 := by
          rw [hpre, nlCount_append, nlCount_cons, if_pos rfl]
          omega
        rw [hnl]
        refine ⟨by simp only [List.length_cons]; omega, m, ?_, ?_, ?_⟩
        · rw [List.getD_cons_succ]
          exact hm
        · rw [List.getD_cons_succ, hpre, lastSeg_append_nl]
          exact hseg
        · rw [hpre, lastSeg_append_nl]
          rw [strByteLen_append, strByteLen_cons]
          rw [List.take_succ_cons]
          unfold lineSum
          simp only [List.map_cons, List.sum_cons]
          unfold lineSum at hsum
          have hnlb : charByteLen '\n' = 1 := by decide
          omega

/-- C6: on text with no supplementary-plane characters, converting a
character-boundary byte offset to a position with `offset_to_position` and
back with `position_to_offset` recovers the original offset. -/
theorem C6_offset_position_roundtrip (text : List Char) (offset : Nat)
    (hlen : strByteLen text < 4294967296)
    (hbmp : ∀ c ∈ text, c.toNat < 65536)
    (hb : ∃ k, k ≤ text.length ∧ offset = strByteLen (text.take k)) :
    ∃ p, offset_to_position text offset = some p ∧
      position_to_offset text p = some offset := by
  obtain ⟨k, hk, rfl⟩ := hb
  refine ⟨⟨nlCount (text.take k), utf16Len (lastSeg (text.take k))⟩,
    otp_boundary text k hk hlen, ?_⟩
  obtain ⟨hL, m, hm, hseg, hsum⟩ := splitNl_decompose text.length text le_rfl k hk
  have hbmpSeg : ∀ c ∈ lastSeg (text.take k), c.toNat < 65536 := by
    intro c hc
    exact hbmp c (List.take_subset k text (lastSeg_subset _ c hc))
  have hmlen : (lastSeg (text.take k)).length = m := by
    rw [hseg, List.length_take]
    omega
  have hcol : utf16Len (lastSeg (text.take k)) = m := by
    rw [utf16Len_bmp _ hbmpSeg, hmlen]
  have hmle : m ≤ strByteLen text := by
    rw [← hmlen]
    calc (lastSeg (text.take k)).length
        ≤ (text.take k).length := lastSeg_length_le _
      _ ≤ text.length := by rw [List.length_take]; omega
      _ ≤ strByteLen text := length_le_strByteLen text
  have hLle : nlCount (text.take k) ≤ strByteLen text :=
    le_trans (nlCount_le_length _)
      (le_trans (by rw [List.length_take]; omega) (length_le_strByteLen text))
  unfold position_to_offset
  have hgo := ptoGo_spec (splitNl text) (nlCount (text.take k)) 0 0
    (utf16Len (lastSeg (text.take k))) hL (by omega)
  simp only [Nat.zero_add] at hgo
  rw [hgo]
  have hbmpL : ∀ c ∈ ((splitNl text).getD (nlCount (text.take k)) []).take m,
      c.toNat < 65536 := by
    intro c hc
    rw [← hseg] at hc
    exact hbmpSeg c hc
  have hu16 : utf16_col_to_byte_offset ((splitNl text).getD (nlCount (text.take k)) [])
      (utf16Len (lastSeg (text.take k)))
      = strByteLen (lastSeg (text.take k)) := by
    rw [hcol]
    unfold utf16_col_to_byte_offset
    rw [show m = 0 + m from (Nat.zero_add m).symm]
    rw [u16Go_bmp _ m 0 0 hm hbmpL (by omega)]
    rw [← hseg]
    omega
  rw [hu16]
  rw [Option.some_inj]
  omega

/-- Witness for C6 at text `"ab\nc"` and offset `4` (the start of `'c'`):
position `(1, 1)` maps back to offset `4`. -/
theorem C6_witness :
    ∃ p, offset_to_position "ab\nc".toList 4 = some p ∧
      position_to_offset "ab\nc".toList p = some 4 :=
  C6_offset_position_roundtrip "ab\nc".toList 4 (by decide) (by decide)
    ⟨4, by decide, by decide⟩


end Hitagi
